import Mathlib

/-!
Shallow embedding of `src/trie.rs` from `rust-okasaki`: a persistent Patricia
trie `PatriciaTrie<T>` with operations `empty`, `bind`, `lookup` and the
internal helper `add_children`.

Modelling decisions, all taken from the Rust source:

* A Rust `String` is modelled as a `List Char` (`Str`).  Rust's `s.len()`
  is the UTF-8 **byte** length, and slicing `s[i..]` / `s[..i]` works on byte
  indices and panics when the index is not a character boundary (or out of
  range).  These are modelled by `byteLen`, `byteDrop`, `byteTake`, the
  latter two returning `none` exactly when Rust would panic.  By contrast
  `s.chars()` iterates characters, so `longest_common_prefix` (which uses
  `chars()`) counts characters.  `k.starts_with(key)` tests byte-prefix,
  which for valid UTF-8 coincides with character-prefix (UTF-8 is a
  prefix-free character code), so it is modelled by `List.isPrefixOf`.
* `HashMap<char, Rc<PatriciaTrie<T>>>` is modelled as an association list
  with distinct keys; `getC` is `HashMap::get` and `insertC` is
  `HashMap::insert` (replacing an existing entry).  `bind` and `lookup`
  only ever `get` and `insert`, so iteration order is irrelevant.
* Every panicking operation (`panic!`, `unwrap`, slicing) returns `none`;
  all fallible code is in the `Option` monad.
-/

abbrev Str := List Char

/-- UTF-8 byte size of one Unicode scalar value (what Rust's `char` occupies
inside a `String`). -/
def csize (c : Char) : Nat :=
  if c.toNat < 0x80 then 1
  else if c.toNat < 0x800 then 2
  else if c.toNat < 0x10000 then 3
  else 4

/-- UTF-8 byte length of a string; Rust's `str::len`. -/
def byteLen : Str → Nat
  | [] => 0
  | c :: cs => csize c + byteLen cs

/-- Rust's byte slicing `s[n..]`: `none` when `n` is not a character
boundary of `s` or out of range (Rust panics there). -/
def byteDrop : Str → Nat → Option Str
  | s, 0 => some s
  | [], _ + 1 => none
  | c :: cs, n + 1 =>
    if n + 1 < csize c then none else byteDrop cs (n + 1 - csize c)

/-- Rust's byte slicing `s[..n]`: `none` when `n` is not a character
boundary of `s` or out of range (Rust panics there). -/
def byteTake : Str → Nat → Option Str
  | _, 0 => some []
  | [], _ + 1 => none
  | c :: cs, n + 1 =>
    if n + 1 < csize c then none
    else
      match byteTake cs (n + 1 - csize c) with
      | none => none
      | some u => some (c :: u)

/-- `fn longest_common_prefix(s1: &str, s2: &str) -> usize`:
`s1.chars().zip(s2.chars()).take_while(|t| t.0 == t.1).count()` —
the number of leading **characters** the two strings share. -/
def longest_common_prefix : Str → Str → Nat
  | c1 :: s1, c2 :: s2 =>
    if c1 = c2 then longest_common_prefix s1 s2 + 1 else 0
  | _, _ => 0

/-- `fn first_char_unwrap(s: &String) -> char`: `s.chars().nth(0).unwrap()`;
`none` models the panic of `unwrap` on an empty string. -/
def first_char_unwrap (s : Str) : Option Char :=
  s.head?

/-- `enum PatriciaTrie<T> { Tip, Node { key, value, children } }`. -/
inductive PatriciaTrie (T : Type) where
  | Tip : PatriciaTrie T
  | Node (key : Str) (value : Option T)
      (children : List (Char × PatriciaTrie T)) : PatriciaTrie T

namespace PatriciaTrie

variable {T : Type}

/-- `HashMap::get` on the children map. -/
def getC : List (Char × PatriciaTrie T) → Char → Option (PatriciaTrie T)
  | [], _ => none
  | (c', t) :: rest, c => if c = c' then some t else getC rest c

/-- `HashMap::insert` on the children map: replaces the entry with the same
key if present, otherwise appends. -/
def insertC (c : Char) (t : PatriciaTrie T) :
    List (Char × PatriciaTrie T) → List (Char × PatriciaTrie T)
  | [] => [(c, t)]
  | (c', t') :: rest =>
    if c = c' then (c, t) :: rest else (c', t') :: insertC c t rest

/-- `fn empty() -> PatriciaTrie<T> { Tip }`. -/
def empty : PatriciaTrie T := Tip

-- Size lemma needed for the termination of `bind` and `lookup` below:
-- a child retrieved from the children map is structurally smaller.
theorem getC_sizeOf (l : List (Char × PatriciaTrie T)) (c : Char)
    (t' : PatriciaTrie T) (h : getC l c = some t') : sizeOf t' < sizeOf l := by
  induction l with
  | nil => simp [getC] at h
  | cons p rest ih =>
    obtain ⟨c', u⟩ := p
    unfold getC at h
    split at h
    · cases h
      simp
      omega
    · have := ih h
      simp at this ⊢
      omega

mutual

/-- `fn bind(&self, k: String, v: T) -> PatriciaTrie<T>`, the insert
operation of `src/trie.rs`.  The local helper `add_children` of the source
is the mutually recursive `add_children` below; the result is `none` when
the Rust code would panic (which happens in byte slicing when the character
count `i` is not a byte boundary). -/
def bind : PatriciaTrie T → Str → T → Option (PatriciaTrie T)
  | Tip, k, v => some (Node k (some v) [])
  | Node key value children, k, v =>
    let i := longest_common_prefix k key
    -- update an already existing key
    if i = byteLen k ∧ i = byteLen key then
      some (Node k (some v) children)
    -- the existing key is contained in the new key
    else if i = byteLen key then
      match byteDrop k i with
      | none => none
      | some k1 =>
        match first_char_unwrap k1 with
        | none => none
        | some c =>
          match add_children (Node key value children) k1 v with
          | none => none
          | some sub => some (Node key value (insertC c sub children))
    -- the new key is contained in the existing key
    else if i = byteLen k then
      match byteDrop key i with
      | none => none
      | some k1 =>
        match first_char_unwrap k1 with
        | none => none
        | some c1 => some (Node k (some v) (insertC c1 (Node k1 value children) []))
    -- split at longest common prefix
    else
      match byteTake k i, byteDrop key i, byteDrop k i with
      | some common, some k1, some k2 =>
        match first_char_unwrap k1, first_char_unwrap k2 with
        | some c1, some c2 =>
          some (Node common none
            (insertC c2 (Node k2 (some v) [])
              (insertC c1 (Node k1 value children) [])))
        | _, _ => none
      | _, _, _ => none
termination_by t _ _ => (sizeOf t, 1)
decreasing_by
  simp
  omega

/-- `fn add_children<T>(t, k, v)`, the internal helper nested inside `bind`:
recurses into the child indexed by `k`'s first character when it exists,
otherwise creates a fresh leaf; `none` on the `Tip` case models
`panic!("undefined")`. -/
def add_children : PatriciaTrie T → Str → T → Option (PatriciaTrie T)
  | Tip, _, _ => none
  | Node _ _ children, k, v =>
    match first_char_unwrap k with
    | none => none
    | some c =>
      match h : getC children c with
      | some n => bind n k v
      | none => some (Node k (some v) [])
termination_by t _ _ => (sizeOf t, 0)
decreasing_by
  have := getC_sizeOf _ _ _ h
  simp
  omega

end

/-- `fn lookup(&self, k: String) -> T` of `src/trie.rs`; `none` models the
panics `"lookup on empty tree."` and `"element does not exist"`.
`k.starts_with(key)` (a byte-prefix test, equivalent to the character-prefix
test for UTF-8 strings) is `key.isPrefixOf k`, and `k[key.len()..]` is
`byteDrop k (byteLen key)`.  The source's
`match *value { Some(v) => v, None => panic!(..) }` is the identity on the
modelled `Option T`, so it is written `value`. -/
def lookup : PatriciaTrie T → Str → Option T
  | Tip, _ => none
  | Node key value children, k =>
    if key.isPrefixOf k then
      match byteDrop k (byteLen key) with
      | none => none
      | some k2 =>
        if k2 = [] then
          value
        else
          match first_char_unwrap k2 with
          | none => none
          | some c =>
            match h : getC children c with
            | some t' => lookup t' k2
            | none => none
    else none
termination_by t _ => sizeOf t
decreasing_by
  have := getC_sizeOf _ _ _ h
  simp
  omega

/-- Folding a list of `(key, value)` pairs into a trie with `bind`,
left to right; `none` as soon as one `bind` panics. -/
def bindList : PatriciaTrie T → List (Str × T) → Option (PatriciaTrie T)
  | t, [] => some t
  | t, p :: ps =>
    match bind t p.1 p.2 with
    | none => none
    | some t' => bindList t' ps

/-- A trie reachable from `empty()` by a sequence of successful `bind`s. -/
def Reachable (t : PatriciaTrie T) : Prop :=
  ∃ ps : List (Str × T), bindList empty ps = some t

/-- A string all of whose characters are single-byte in UTF-8 (ASCII). -/
def ascii (s : Str) : Prop :=
  ∀ c ∈ s, csize c = 1

instance (s : Str) : Decidable (ascii s) :=
  List.decidableBAll _ s

/-- A trie all of whose fragments are ASCII strings. -/
inductive AsciiT : PatriciaTrie T → Prop where
  | tip : AsciiT Tip
  | node {key : Str} {value : Option T} {children : List (Char × PatriciaTrie T)} :
      ascii key → (∀ p ∈ children, AsciiT p.2) →
      AsciiT (Node key value children)

/-- A trie reachable from `empty()` by a sequence of successful `bind`s all
of whose keys are ASCII. -/
def ReachableA (t : PatriciaTrie T) : Prop :=
  ∃ ps : List (Str × T), (∀ p ∈ ps, ascii p.1) ∧ bindList empty ps = some t

/-- The first character of a node's fragment (`none` for `Tip` and for an
empty fragment). -/
def fragHead : PatriciaTrie T → Option Char
  | Tip => none
  | Node key _ _ => key.head?

/-- The structural invariant of the trie (spec §3): the children map keys
are pairwise distinct, and every child is a `Node` whose fragment is
non-empty and starts with exactly the character it is stored under. -/
inductive Inv : PatriciaTrie T → Prop where
  | tip : Inv Tip
  | node {key : Str} {value : Option T} {children : List (Char × PatriciaTrie T)} :
      (children.map Prod.fst).Nodup →
      (∀ p ∈ children, fragHead p.2 = some p.1) →
      (∀ p ∈ children, Inv p.2) →
      Inv (Node key value children)

/-- Modelled from the spec (§3 data model and §7 `KeyNotFound`): key `k` is
*bound* to `v` in the trie when a value `some v` sits at the node reached
from the root by consuming fragments along `k`, descending to children by
the first character of the remaining key ("reachable by prefix traversal").
-/
inductive Bound : PatriciaTrie T → Str → T → Prop where
  | here {key : Str} {value : Option T} {children : List (Char × PatriciaTrie T)}
      {v : T} : value = some v → Bound (Node key value children) key v
  | there {key : Str} {value : Option T} {children : List (Char × PatriciaTrie T)}
      {c : Char} {t' : PatriciaTrie T} {r : Str} {v : T} :
      r.head? = some c → (c, t') ∈ children → Bound t' r v →
      Bound (Node key value children) (key ++ r) v

/-- The trie is a `Node`. -/
def isNodeP : PatriciaTrie T → Prop
  | Tip => False
  | Node _ _ _ => True

/-- The node (if it is one) has a non-empty fragment. -/
def fragNonempty : PatriciaTrie T → Prop
  | Tip => True
  | Node key _ _ => key ≠ []

/-- No node strictly below the root has an empty fragment. -/
inductive NoEmptyFragBelow : PatriciaTrie T → Prop where
  | tip : NoEmptyFragBelow Tip
  | node {key : Str} {value : Option T} {children : List (Char × PatriciaTrie T)} :
      (∀ p ∈ children, fragNonempty p.2) →
      (∀ p ∈ children, NoEmptyFragBelow p.2) →
      NoEmptyFragBelow (Node key value children)

/-- No children map anywhere in the trie contains the `Tip` variant. -/
inductive NoTipChild : PatriciaTrie T → Prop where
  | tip : NoTipChild Tip
  | node {key : Str} {value : Option T} {children : List (Char × PatriciaTrie T)} :
      (∀ p ∈ children, isNodeP p.2) →
      (∀ p ∈ children, NoTipChild p.2) →
      NoTipChild (Node key value children)

/-- If the root is a `Node` with empty fragment then it carries no value. -/
def rootEmptyValNone (t : PatriciaTrie T) : Prop :=
  ∀ (value : Option T) children, t = Node [] value children → value = none

end PatriciaTrie

/-! ### Byte-level string lemmas -/

namespace PatriciaTrie

variable {T : Type}

theorem csize_pos (c : Char) : 0 < csize c := by
  unfold csize
  split_ifs <;> omega

@[simp] theorem byteLen_nil : byteLen [] = 0 := rfl

@[simp] theorem byteLen_cons (c : Char) (s : Str) :
    byteLen (c :: s) = csize c + byteLen s := rfl

theorem byteLen_append (s t : Str) :
    byteLen (s ++ t) = byteLen s + byteLen t := by
  induction s with
  | nil => simp
  | cons c cs ih => simp [ih, Nat.add_assoc]

theorem length_le_byteLen (s : Str) : s.length ≤ byteLen s := by
  induction s with
  | nil => simp
  | cons c cs ih =>
    have := csize_pos c
    simp only [List.length_cons, byteLen_cons]
    omega

theorem byteLen_eq_zero {s : Str} (h : byteLen s = 0) : s = [] := by
  cases s with
  | nil => rfl
  | cons c cs =>
    have := csize_pos c
    simp at h
    omega

@[simp] theorem byteDrop_zero (s : Str) : byteDrop s 0 = some s := by
  cases s <;> rfl

theorem byteDrop_cons_pos (c : Char) (cs : Str) {n : Nat} (hn : 0 < n) :
    byteDrop (c :: cs) n =
      if n < csize c then none else byteDrop cs (n - csize c) := by
  cases n with
  | zero => omega
  | succ m => rfl

theorem byteDrop_nil_pos {n : Nat} (hn : 0 < n) : byteDrop [] n = none := by
  cases n with
  | zero => omega
  | succ m => rfl

theorem byteTake_cons_pos (c : Char) (cs : Str) {n : Nat} (hn : 0 < n) :
    byteTake (c :: cs) n =
      if n < csize c then none
      else
        match byteTake cs (n - csize c) with
        | none => none
        | some u => some (c :: u) := by
  cases n with
  | zero => omega
  | succ m => rfl

theorem byteDrop_append (s t : Str) :
    byteDrop (s ++ t) (byteLen s) = some t := by
  induction s with
  | nil => simp
  | cons c cs ih =>
    have hc := csize_pos c
    rw [List.cons_append, byteLen_cons,
      byteDrop_cons_pos c (cs ++ t) (by omega), if_neg (by omega)]
    simpa using ih

theorem byteDrop_byteLen {s u : Str} {n : Nat} (h : byteDrop s n = some u) :
    byteLen s = n + byteLen u := by
  induction s generalizing n with
  | nil =>
    cases n with
    | zero => cases h; simp
    | succ m => rw [byteDrop_nil_pos (by omega)] at h; cases h
  | cons c cs ih =>
    cases n with
    | zero => cases h; simp
    | succ m =>
      rw [byteDrop_cons_pos c cs (by omega)] at h
      by_cases h1 : m + 1 < csize c
      · rw [if_pos h1] at h; cases h
      · rw [if_neg h1] at h
        have := ih h
        simp only [byteLen_cons]
        omega

theorem byteDrop_ne_nil {s u : Str} {n : Nat} (h : byteDrop s n = some u)
    (hlt : n < byteLen s) : u ≠ [] := by
  intro hu
  subst hu
  have := byteDrop_byteLen h
  simp at this
  omega

theorem byteTake_head {s u : Str} {n : Nat} (h : byteTake s n = some u)
    (hn : n ≠ 0) : u.head? = s.head? := by
  cases s with
  | nil =>
    cases n with
    | zero => omega
    | succ m => cases h
  | cons c cs =>
    rw [byteTake_cons_pos c cs (by omega)] at h
    by_cases h1 : n < csize c
    · rw [if_pos h1] at h; cases h
    · rw [if_neg h1] at h
      cases hb : byteTake cs (n - csize c) with
      | none => rw [hb] at h; cases h
      | some u' => rw [hb] at h; cases h; simp

/-! ### ASCII strings: byte operations collapse to character operations -/

theorem ascii_nil : ascii [] := by
  intro c hc
  cases hc

theorem ascii_cons {c : Char} {s : Str} :
    ascii (c :: s) ↔ csize c = 1 ∧ ascii s := by
  simp [ascii]

theorem ascii_append {s t : Str} :
    ascii (s ++ t) ↔ ascii s ∧ ascii t := by
  simp [ascii, or_imp, forall_and]

theorem ascii_drop {s : Str} (h : ascii s) (n : Nat) : ascii (s.drop n) :=
  fun c hc => h c (List.drop_subset n s hc)

theorem ascii_take {s : Str} (h : ascii s) (n : Nat) : ascii (s.take n) :=
  fun c hc => h c (List.take_subset n s hc)

theorem byteLen_ascii {s : Str} (h : ascii s) : byteLen s = s.length := by
  induction s with
  | nil => simp
  | cons c cs ih =>
    rw [ascii_cons] at h
    simp only [byteLen_cons, List.length_cons, h.1, ih h.2]
    omega

theorem byteDrop_ascii {s : Str} (h : ascii s) {n : Nat} (hn : n ≤ s.length) :
    byteDrop s n = some (s.drop n) := by
  induction s generalizing n with
  | nil =>
    simp at hn
    simp [hn]
  | cons c cs ih =>
    cases n with
    | zero => simp
    | succ m =>
      rw [ascii_cons] at h
      rw [byteDrop_cons_pos c cs (by omega), h.1, if_neg (by omega)]
      simp at hn
      simpa using ih h.2 (by omega)

theorem byteTake_ascii {s : Str} (h : ascii s) {n : Nat} (hn : n ≤ s.length) :
    byteTake s n = some (s.take n) := by
  induction s generalizing n with
  | nil =>
    simp at hn
    simp [hn, byteTake]
  | cons c cs ih =>
    cases n with
    | zero => simp [byteTake]
    | succ m =>
      rw [ascii_cons] at h
      rw [byteTake_cons_pos c cs (by omega), h.1, if_neg (by omega)]
      simp at hn
      rw [ih h.2 (by omega)]
      simp

end PatriciaTrie

/-! ### Longest common prefix lemmas -/

namespace PatriciaTrie

variable {T : Type}

@[simp] theorem lcp_nil_left (t : Str) : longest_common_prefix [] t = 0 := by
  cases t <;> rfl

@[simp] theorem lcp_nil_right (s : Str) : longest_common_prefix s [] = 0 := by
  cases s <;> rfl

@[simp] theorem lcp_cons (a b : Char) (s t : Str) :
    longest_common_prefix (a :: s) (b :: t) =
      if a = b then longest_common_prefix s t + 1 else 0 := rfl

theorem lcp_le_left (s t : Str) : longest_common_prefix s t ≤ s.length := by
  induction s generalizing t with
  | nil => simp
  | cons a s ih =>
    cases t with
    | nil => simp
    | cons b t =>
      simp only [lcp_cons, List.length_cons]
      split_ifs
      · have := ih t
        omega
      · omega

theorem lcp_le_right (s t : Str) : longest_common_prefix s t ≤ t.length := by
  induction s generalizing t with
  | nil => simp
  | cons a s ih =>
    cases t with
    | nil => simp
    | cons b t =>
      simp only [lcp_cons, List.length_cons]
      split_ifs
      · have := ih t
        omega
      · omega

theorem lcp_self (s : Str) : longest_common_prefix s s = s.length := by
  induction s with
  | nil => simp
  | cons a s ih => simp [ih]

theorem lcp_of_prefix {s t : Str} (h : s <+: t) :
    longest_common_prefix s t = s.length := by
  obtain ⟨r, rfl⟩ := h
  induction s with
  | nil => simp
  | cons a s ih => simpa using ih

theorem prefix_of_lcp_left {s t : Str}
    (h : longest_common_prefix s t = s.length) : s <+: t := by
  induction s generalizing t with
  | nil => exact List.nil_prefix
  | cons a s ih =>
    cases t with
    | nil => simp at h
    | cons b t =>
      simp only [lcp_cons, List.length_cons] at h
      by_cases hab : a = b
      · rw [if_pos hab] at h
        subst hab
        exact List.cons_prefix_cons.mpr ⟨rfl, ih (by omega)⟩
      · rw [if_neg hab] at h
        omega

theorem eq_of_lcp_both {s t : Str}
    (h1 : longest_common_prefix s t = s.length)
    (h2 : longest_common_prefix s t = t.length) : s = t :=
  ( prefix_of_lcp_left h1).eq_of_length (by omega)

theorem lcp_take_eq (s t : Str) :
    s.take ( longest_common_prefix s t) = t.take ( longest_common_prefix s t) := by
  induction s generalizing t with
  | nil => simp
  | cons a s ih =>
    cases t with
    | nil => simp
    | cons b t =>
      simp only [lcp_cons]
      by_cases hab : a = b
      · rw [if_pos hab]
        subst hab
        simp [ih t]
      · rw [if_neg hab]
        simp

theorem lcp_head_ne {s t : Str}
    (h1 : longest_common_prefix s t < s.length)
    (h2 : longest_common_prefix s t < t.length) :
    (s.drop ( longest_common_prefix s t)).head? ≠
      (t.drop ( longest_common_prefix s t)).head? := by
  induction s generalizing t with
  | nil => simp at h1
  | cons a s ih =>
    cases t with
    | nil => simp at h2
    | cons b t =>
      simp only [lcp_cons] at h1 h2 ⊢
      by_cases hab : a = b
      · rw [if_pos hab] at h1 h2 ⊢
        simp only [List.length_cons] at h1 h2
        simpa [List.drop_succ_cons] using ih (by omega) (by omega : longest_common_prefix s t < t.length)
      · rw [if_neg hab] at h1 h2 ⊢
        simpa using hab

/-! ### Prefix test helpers -/

theorem isPrefixOf_true {s t : Str} (h : s <+: t) : s.isPrefixOf t = true := by
  rw [ List.isPrefixOf_iff_prefix]
  exact h

theorem isPrefixOf_false {s t : Str} (h : ¬ s <+: t) : s.isPrefixOf t = false :=
  Bool.eq_false_iff.mpr (fun hh => h ( List.isPrefixOf_iff_prefix.mp hh))

/-! ### Children map lemmas -/

@[simp] theorem getC_nil (c : Char) :
    getC ([] : List (Char × PatriciaTrie T)) c = none := rfl

@[simp] theorem getC_cons (c' : Char) (t : PatriciaTrie T) (rest) (c : Char) :
    getC ((c', t) :: rest) c = if c = c' then some t else getC rest c := rfl

@[simp] theorem insertC_nil (c : Char) (t : PatriciaTrie T) :
    insertC c t [] = [(c, t)] := rfl

@[simp] theorem insertC_cons (c : Char) (t : PatriciaTrie T) (c' t' rest) :
    insertC c t ((c', t') :: rest) =
      if c = c' then (c, t) :: rest else (c', t') :: insertC c t rest := rfl

theorem getC_insertC_self (l : List (Char × PatriciaTrie T)) (c : Char)
    (t : PatriciaTrie T) : getC (insertC c t l) c = some t := by
  induction l with
  | nil => simp
  | cons p rest ih =>
    obtain ⟨c', t'⟩ := p
    by_cases hc : c = c'
    · simp [hc]
    · simp [hc, ih]

theorem getC_insertC_ne (l : List (Char × PatriciaTrie T)) {c c'' : Char}
    (t : PatriciaTrie T) (h : c'' ≠ c) :
    getC (insertC c t l) c'' = getC l c'' := by
  induction l with
  | nil => simp [h]
  | cons p rest ih =>
    obtain ⟨c', t'⟩ := p
    by_cases hc : c = c'
    · subst hc
      simp [h]
    · by_cases hc'' : c'' = c'
      · simp [hc, hc'']
      · simp [hc, hc'', ih]

theorem mem_insertC {l : List (Char × PatriciaTrie T)} {c : Char}
    {t : PatriciaTrie T} {p : Char × PatriciaTrie T}
    (h : p ∈ insertC c t l) : p = (c, t) ∨ p ∈ l := by
  induction l with
  | nil =>
    rw [insertC_nil, List.mem_singleton] at h
    exact Or.inl h
  | cons q rest ih =>
    obtain ⟨c', t'⟩ := q
    rw [insertC_cons] at h
    by_cases hc : c = c'
    · rw [if_pos hc, List.mem_cons] at h
      rcases h with h | h
      · exact Or.inl h
      · exact Or.inr (List.mem_cons_of_mem _ h)
    · rw [if_neg hc, List.mem_cons] at h
      rcases h with h | h
      · exact Or.inr (h ▸ List.mem_cons_self _ _)
      · rcases ih h with h' | h'
        · exact Or.inl h'
        · exact Or.inr (List.mem_cons_of_mem _ h')

theorem mem_keys_insertC {l : List (Char × PatriciaTrie T)} {c x : Char}
    {t : PatriciaTrie T} :
    x ∈ (insertC c t l).map Prod.fst ↔ x = c ∨ x ∈ l.map Prod.fst := by
  induction l with
  | nil => simp
  | cons q rest ih =>
    obtain ⟨c', t'⟩ := q
    rw [insertC_cons]
    by_cases hc : c = c'
    · subst hc
      rw [if_pos rfl]
      simp
    · rw [if_neg hc]
      rw [List.map_cons, List.mem_cons, List.map_cons, List.mem_cons, ih]
      tauto

theorem nodup_insertC {l : List (Char × PatriciaTrie T)} {c : Char}
    {t : PatriciaTrie T} (h : (l.map Prod.fst).Nodup) :
    ((insertC c t l).map Prod.fst).Nodup := by
  induction l with
  | nil => simp
  | cons q rest ih =>
    obtain ⟨c', t'⟩ := q
    rw [List.map_cons, List.nodup_cons] at h
    rw [insertC_cons]
    by_cases hc : c = c'
    · subst hc
      rw [if_pos rfl, List.map_cons, List.nodup_cons]
      exact h
    · rw [if_neg hc, List.map_cons, List.nodup_cons]
      refine ⟨fun hmem => ?_, ih h.2⟩
      rw [mem_keys_insertC] at hmem
      rcases hmem with h' | h'
      · exact hc h'.symm
      · exact h.1 h'

theorem getC_mem {l : List (Char × PatriciaTrie T)} {c : Char}
    {t : PatriciaTrie T} (h : getC l c = some t) : (c, t) ∈ l := by
  induction l with
  | nil => simp at h
  | cons q rest ih =>
    obtain ⟨c', t'⟩ := q
    rw [getC_cons] at h
    by_cases hc : c = c'
    · rw [if_pos hc] at h
      cases h
      subst hc
      exact List.mem_cons_self _ _
    · rw [if_neg hc] at h
      exact List.mem_cons_of_mem _ (ih h)

theorem getC_of_mem {l : List (Char × PatriciaTrie T)} {c : Char}
    {t : PatriciaTrie T} (hnod : (l.map Prod.fst).Nodup)
    (h : (c, t) ∈ l) : getC l c = some t := by
  induction l with
  | nil => simp at h
  | cons q rest ih =>
    obtain ⟨c', t'⟩ := q
    rw [List.map_cons, List.nodup_cons] at hnod
    rw [List.mem_cons] at h
    rw [getC_cons]
    rcases h with h | h
    · rw [Prod.mk.injEq] at h
      rw [if_pos h.1, h.2]
    · have hcmem : c ∈ List.map Prod.fst rest :=
        List.mem_map.mpr ⟨(c, t), h, rfl⟩
      have hcne : c ≠ c' := fun hcc => hnod.1 (hcc ▸ hcmem)
      rw [if_neg hcne]
      exact ih hnod.2 h

end PatriciaTrie

/-! ### Unfolding lemmas for `lookup` -/

namespace PatriciaTrie

variable {T : Type}

@[simp] theorem lookup_tip (k : Str) : lookup (Tip : PatriciaTrie T) k = none := by
  rw [lookup.eq_1]

theorem lookup_mismatch {key k : Str} (h : ¬ key <+: k)
    (value : Option T) (children) :
    lookup (Node key value children) k = none := by
  rw [lookup.eq_2, isPrefixOf_false h]
  simp

theorem lookup_frag (key : Str) (value : Option T) (children) :
    lookup (Node key value children) key = value := by
  have h2 : byteDrop key (byteLen key) = some [] := by
    simpa using byteDrop_append key []
  rw [lookup.eq_2, isPrefixOf_true List.prefix_rfl]
  simp only [if_true, h2]

theorem lookup_append_cons_some {children : List (Char × PatriciaTrie T)}
    {c : Char} {t' : PatriciaTrie T} (h : getC children c = some t')
    (key : Str) (value : Option T) (r : Str) :
    lookup (Node key value children) (key ++ c :: r) = lookup t' (c :: r) := by
  rw [lookup.eq_2, isPrefixOf_true (List.prefix_append _ _), byteDrop_append]
  have hfc : first_char_unwrap (c :: r) = some c := rfl
  simp only [reduceCtorEq, if_false, hfc, if_true]
  split
  · next n heq => rw [h] at heq; cases heq; rfl
  · next heq => rw [h] at heq; cases heq

theorem lookup_append_cons_none {children : List (Char × PatriciaTrie T)}
    {c : Char} (h : getC children c = none)
    (key : Str) (value : Option T) (r : Str) :
    lookup (Node key value children) (key ++ c :: r) = none := by
  rw [lookup.eq_2, isPrefixOf_true (List.prefix_append _ _), byteDrop_append]
  have hfc : first_char_unwrap (c :: r) = some c := rfl
  simp only [reduceCtorEq, if_false, hfc, if_true]
  split
  · next n heq => rw [h] at heq; cases heq
  · next heq => rfl

/-! ### Unfolding lemmas for `add_children` and `bind` -/

@[simp] theorem add_children_tip (k : Str) (v : T) :
    add_children (Tip : PatriciaTrie T) k v = none := by
  rw [add_children.eq_1]

theorem add_children_node_some {k : Str} {c : Char}
    {children : List (Char × PatriciaTrie T)} {n : PatriciaTrie T}
    (hc : k.head? = some c) (h : getC children c = some n)
    (key : Str) (value : Option T) (v : T) :
    add_children (Node key value children) k v = bind n k v := by
  have hfc : first_char_unwrap k = some c := hc
  rw [add_children.eq_2]
  simp only [hfc]
  split
  · next n2 heq => rw [h] at heq; cases heq; rfl
  · next heq => rw [h] at heq; cases heq

theorem add_children_node_none {k : Str} {c : Char}
    {children : List (Char × PatriciaTrie T)}
    (hc : k.head? = some c) (h : getC children c = none)
    (key : Str) (value : Option T) (v : T) :
    add_children (Node key value children) k v = some (Node k (some v) []) := by
  have hfc : first_char_unwrap k = some c := hc
  rw [add_children.eq_2]
  simp only [hfc]
  split
  · next n2 heq => rw [h] at heq; cases heq
  · next heq => rfl

@[simp] theorem bind_tip (k : Str) (v : T) :
    bind (Tip : PatriciaTrie T) k v = some (Node k (some v) []) := by
  rw [bind.eq_1]

theorem bind_exact {key : Str} (h : ascii key) (value : Option T)
    (children) (v : T) :
    bind (Node key value children) key v = some (Node key (some v) children) := by
  have hb : byteLen key = key.length := byteLen_ascii h
  have hi : longest_common_prefix key key = key.length := lcp_self key
  rw [bind.eq_2]
  rw [if_pos ⟨by rw [hi, hb], by rw [hi, hb]⟩]

end PatriciaTrie

/-! ### Case lemmas for `bind` on ASCII inputs -/

namespace PatriciaTrie

variable {T : Type}

theorem bind_grow_some {k key : Str} {c : Char} {sub : PatriciaTrie T}
    {children : List (Char × PatriciaTrie T)} {value : Option T} {v : T}
    (hk : ascii k) (hkey : ascii key)
    (hl : longest_common_prefix k key = key.length)
    (hlt : key.length < k.length)
    (hc : (k.drop key.length).head? = some c)
    (hsub : add_children (Node key value children) (k.drop key.length) v = some sub) :
    bind (Node key value children) k v =
      some (Node key value (insertC c sub children)) := by
  have hbk : byteLen k = k.length := byteLen_ascii hk
  have hbkey : byteLen key = key.length := byteLen_ascii hkey
  have hd : byteDrop k ( longest_common_prefix k key) = some (k.drop key.length) := by
    rw [hl]
    exact byteDrop_ascii hk (by omega)
  have hfc : first_char_unwrap (k.drop key.length) = some c := hc
  rw [bind.eq_2]
  rw [if_neg (by rw [hbk, hbkey, hl]; omega), if_pos (by rw [hbkey, hl])]
  rw [hd]
  simp only [hfc, hsub]

theorem bind_grow_none {k key : Str} {c : Char}
    {children : List (Char × PatriciaTrie T)} {value : Option T} {v : T}
    (hk : ascii k) (hkey : ascii key)
    (hl : longest_common_prefix k key = key.length)
    (hlt : key.length < k.length)
    (hc : (k.drop key.length).head? = some c)
    (hsub : add_children (Node key value children) (k.drop key.length) v = none) :
    bind (Node key value children) k v = none := by
  have hbk : byteLen k = k.length := byteLen_ascii hk
  have hbkey : byteLen key = key.length := byteLen_ascii hkey
  have hd : byteDrop k ( longest_common_prefix k key) = some (k.drop key.length) := by
    rw [hl]
    exact byteDrop_ascii hk (by omega)
  have hfc : first_char_unwrap (k.drop key.length) = some c := hc
  rw [bind.eq_2]
  rw [if_neg (by rw [hbk, hbkey, hl]; omega), if_pos (by rw [hbkey, hl])]
  rw [hd]
  simp only [hfc, hsub]

theorem bind_split_upper {k key : Str} {c1 : Char}
    {children : List (Char × PatriciaTrie T)} {value : Option T} {v : T}
    (hk : ascii k) (hkey : ascii key)
    (hl : longest_common_prefix k key = k.length)
    (hlt : k.length < key.length)
    (hc1 : (key.drop k.length).head? = some c1) :
    bind (Node key value children) k v =
      some (Node k (some v) [(c1, Node (key.drop k.length) value children)]) := by
  have hbk : byteLen k = k.length := byteLen_ascii hk
  have hbkey : byteLen key = key.length := byteLen_ascii hkey
  have hd : byteDrop key ( longest_common_prefix k key) = some (key.drop k.length) := by
    rw [hl]
    exact byteDrop_ascii hkey (by omega)
  have hfc : first_char_unwrap (key.drop k.length) = some c1 := hc1
  rw [bind.eq_2]
  rw [if_neg (by rw [hbk, hbkey, hl]; omega),
    if_neg (by rw [hbkey, hl]; omega), if_pos (by rw [hbk, hl])]
  rw [hd]
  simp only [hfc, insertC_nil]

theorem bind_split {k key : Str} {c1 c2 : Char}
    {children : List (Char × PatriciaTrie T)} {value : Option T} {v : T}
    (hk : ascii k) (hkey : ascii key)
    (hl1 : longest_common_prefix k key < k.length)
    (hl2 : longest_common_prefix k key < key.length)
    (hc1 : (key.drop ( longest_common_prefix k key)).head? = some c1)
    (hc2 : (k.drop ( longest_common_prefix k key)).head? = some c2)
    (hne : c1 ≠ c2) :
    bind (Node key value children) k v =
      some (Node (k.take ( longest_common_prefix k key)) none
        [(c1, Node (key.drop ( longest_common_prefix k key)) value children),
         (c2, Node (k.drop ( longest_common_prefix k key)) (some v) [])]) := by
  have hbk : byteLen k = k.length := byteLen_ascii hk
  have hbkey : byteLen key = key.length := byteLen_ascii hkey
  have ht : byteTake k ( longest_common_prefix k key) =
      some (k.take ( longest_common_prefix k key)) :=
    byteTake_ascii hk (by omega)
  have hd1 : byteDrop key ( longest_common_prefix k key) =
      some (key.drop ( longest_common_prefix k key)) :=
    byteDrop_ascii hkey (by omega)
  have hd2 : byteDrop k ( longest_common_prefix k key) =
      some (k.drop ( longest_common_prefix k key)) :=
    byteDrop_ascii hk (by omega)
  have hfc1 : first_char_unwrap (key.drop ( longest_common_prefix k key)) = some c1 := hc1
  have hfc2 : first_char_unwrap (k.drop ( longest_common_prefix k key)) = some c2 := hc2
  rw [bind.eq_2]
  rw [if_neg (by rw [hbk, hbkey]; omega), if_neg (by rw [hbkey]; omega),
    if_neg (by rw [hbk]; omega)]
  rw [ht, hd1, hd2]
  simp only [hfc1, hfc2, insertC_nil, insertC_cons, if_neg (Ne.symm hne)]

end PatriciaTrie

/-! ### Inversion lemmas for `bind` -/

namespace PatriciaTrie

variable {T : Type}

theorem bind_node_inv {key : Str} {value : Option T}
    {children : List (Char × PatriciaTrie T)} {k : Str} {v : T}
    {t' : PatriciaTrie T} (h : bind (Node key value children) k v = some t') :
    ( longest_common_prefix k key = byteLen k ∧
       longest_common_prefix k key = byteLen key ∧
       t' = Node k (some v) children) ∨
    ( longest_common_prefix k key ≠ byteLen k ∧
       longest_common_prefix k key = byteLen key ∧
       ∃ k1 c sub, byteDrop k ( longest_common_prefix k key) = some k1 ∧
         k1.head? = some c ∧
         add_children (Node key value children) k1 v = some sub ∧
         t' = Node key value (insertC c sub children)) ∨
    ( longest_common_prefix k key = byteLen k ∧
       longest_common_prefix k key ≠ byteLen key ∧
       ∃ k1 c1, byteDrop key ( longest_common_prefix k key) = some k1 ∧
         k1.head? = some c1 ∧
         t' = Node k (some v) [(c1, Node k1 value children)]) ∨
    ( longest_common_prefix k key ≠ byteLen k ∧
       longest_common_prefix k key ≠ byteLen key ∧
       ∃ common k1 k2 c1 c2, byteTake k ( longest_common_prefix k key) = some common ∧
         byteDrop key ( longest_common_prefix k key) = some k1 ∧
         byteDrop k ( longest_common_prefix k key) = some k2 ∧
         k1.head? = some c1 ∧ k2.head? = some c2 ∧
         t' = Node common none (insertC c2 (Node k2 (some v) [])
           (insertC c1 (Node k1 value children) []))) := by
  rw [bind.eq_2] at h
  split_ifs at h with h1 h2 h3
  · cases h
    exact Or.inl ⟨h1.1, h1.2, rfl⟩
  · split at h
    · cases h
    · next k1 heq1 =>
      split at h
      · cases h
      · next c heq2 =>
        split at h
        · cases h
        · next sub heq3 =>
          cases h
          exact Or.inr (Or.inl ⟨fun hA => h1 ⟨hA, h2⟩, h2, k1, c, sub, heq1, heq2, heq3, rfl⟩)
  · split at h
    · cases h
    · next k1 heq1 =>
      split at h
      · cases h
      · next c1 heq2 =>
        cases h
        exact Or.inr (Or.inr (Or.inl ⟨h3, h2, k1, c1, heq1, heq2, by rw [insertC_nil]⟩))
  · split at h
    · next common k1 k2 heqa heqb heqc =>
      split at h
      · next c1 c2 heqd heqe =>
        cases h
        exact Or.inr (Or.inr (Or.inr ⟨h3, h2, common, k1, k2, c1, c2, heqa, heqb, heqc, heqd, heqe, rfl⟩))
      · cases h
    · cases h

end PatriciaTrie

namespace PatriciaTrie

variable {T : Type}

theorem add_children_inv {key : Str} {value : Option T}
    {children : List (Char × PatriciaTrie T)} {k : Str} {v : T}
    {sub : PatriciaTrie T}
    (h : add_children (Node key value children) k v = some sub) :
    ∃ c, k.head? = some c ∧
      ((∃ n, getC children c = some n ∧ bind n k v = some sub) ∨
       (getC children c = none ∧ sub = Node k (some v) [])) := by
  rw [add_children.eq_2] at h
  split at h
  · cases h
  · next c heq1 =>
    split at h
    · next n heq2 => exact ⟨c, heq1, Or.inl ⟨n, heq2, h⟩⟩
    · next heq2 =>
      cases h
      exact ⟨c, heq1, Or.inr ⟨heq2, rfl⟩⟩

theorem bind_isNode {t : PatriciaTrie T} {k : Str} {v : T} {t' : PatriciaTrie T}
    (h : bind t k v = some t') : ∃ f val ch, t' = Node f val ch := by
  cases t with
  | Tip =>
    rw [bind_tip] at h
    cases h
    exact ⟨k, some v, [], rfl⟩
  | Node key value children =>
    rcases bind_node_inv h with ⟨_, _, rfl⟩ |
      ⟨_, _, k1, c, sub, _, _, _, rfl⟩ |
      ⟨_, _, k1, c1, _, _, rfl⟩ |
      ⟨_, _, common, k1, k2, c1, c2, _, _, _, _, _, rfl⟩
    · exact ⟨_, _, _, rfl⟩
    · exact ⟨_, _, _, rfl⟩
    · exact ⟨_, _, _, rfl⟩
    · exact ⟨_, _, _, rfl⟩

theorem sizeOf_pos (t : PatriciaTrie T) : 0 < sizeOf t := by
  cases t <;> simp

theorem getC_sizeOf_node {children : List (Char × PatriciaTrie T)} {c : Char}
    {n : PatriciaTrie T} (h : getC children c = some n)
    (key : Str) (value : Option T) :
    sizeOf n < sizeOf (Node key value children) := by
  have := getC_sizeOf _ _ _ h
  simp
  omega

theorem Inv_node {key : Str} {value : Option T}
    {children : List (Char × PatriciaTrie T)}
    (h : Inv (Node key value children)) :
    (children.map Prod.fst).Nodup ∧
      (∀ p ∈ children, fragHead p.2 = some p.1) ∧
      (∀ p ∈ children, Inv p.2) := by
  cases h with
  | node h1 h2 h3 => exact ⟨h1, h2, h3⟩

theorem Inv_leaf (key : Str) (value : Option T) :
    Inv (Node key value ([] : List (Char × PatriciaTrie T))) := by
  refine Inv.node (by simp) ?_ ?_ <;> intro p hp <;> cases hp

theorem lcp_pos_of_head_eq {s t : Str} {c : Char}
    (hs : s.head? = some c) (ht : t.head? = some c) :
    0 < longest_common_prefix s t := by
  cases s with
  | nil => cases hs
  | cons a s =>
    cases t with
    | nil => cases ht
    | cons b t =>
      simp at hs ht
      subst hs
      subst ht
      simp

end PatriciaTrie

/-! ### `bind` preserves the structural invariant (for arbitrary keys) -/

namespace PatriciaTrie

variable {T : Type}

theorem bind_Inv_aux :
    ∀ (N : Nat) (t : PatriciaTrie T), sizeOf t ≤ N →
      ∀ (k : Str) (v : T) (t' : PatriciaTrie T),
        bind t k v = some t' → Inv t →
        Inv t' ∧ ∃ f val ch, t' = Node f val ch ∧
          (∀ c : Char, k.head? = some c →
            (t = Tip ∨ fragHead t = some c) → f.head? = some c) := by
  intro N
  induction N with
  | zero =>
    intro t hsz
    have := sizeOf_pos t
    omega
  | succ N ih =>
    intro t hsz k v t' hb hinv
    cases t with
    | Tip =>
      rw [bind_tip] at hb
      cases hb
      refine ⟨Inv_leaf k (some v), k, some v, [], rfl, ?_⟩
      intro c hkc _
      exact hkc
    | Node key value children =>
      obtain ⟨hnodup, hheads, hinvs⟩ := Inv_node hinv
      rcases bind_node_inv hb with
        ⟨e1, e2, rfl⟩ |
        ⟨ne1, e2, k1, c, sub, hdk, hk1c, hsub, rfl⟩ |
        ⟨e1, ne2, k1, c1, hdkey, hk1c, rfl⟩ |
        ⟨ne1, ne2, common, k1, k2, c1, c2, hta, hdb, hdc, h1c, h2c, rfl⟩
      · refine ⟨Inv.node hnodup hheads hinvs, k, some v, children, rfl, ?_⟩
        intro c hkc _
        exact hkc
      · obtain ⟨c', hk1c', hcase⟩ := add_children_inv hsub
        rw [hk1c] at hk1c'
        obtain rfl := Option.some.inj hk1c'
        have hsubNode : Inv sub ∧ fragHead sub = some c := by
          rcases hcase with ⟨n, hget, hbn⟩ | ⟨hget, rfl⟩
          · have hmem := getC_mem hget
            have hInvn : Inv n := hinvs _ hmem
            have hszn : sizeOf n ≤ N := by
              have := getC_sizeOf_node hget key value
              omega
            obtain ⟨hInvSub, f, valS, chS, rfl, hhead⟩ :=
              ih n hszn k1 v sub hbn hInvn
            refine ⟨hInvSub, ?_⟩
            have hfh : f.head? = some c := by
              apply hhead c hk1c
              exact Or.inr (hheads _ hmem)
            simpa [fragHead] using hfh
          · exact ⟨Inv_leaf k1 (some v), by simpa [fragHead] using hk1c⟩
        refine ⟨?_, key, value, insertC c sub children, rfl, ?_⟩
        · refine Inv.node (nodup_insertC hnodup) ?_ ?_
          · intro p hp
            rcases mem_insertC hp with rfl | hp'
            · exact hsubNode.2
            · exact hheads _ hp'
          · intro p hp
            rcases mem_insertC hp with rfl | hp'
            · exact hsubNode.1
            · exact hinvs _ hp'
        · intro c0 hkc hdisj
          rcases hdisj with htip | hfh
          · cases htip
          · simpa [fragHead] using hfh
      · refine ⟨?_, k, some v, [(c1, Node k1 value children)], rfl, ?_⟩
        · refine Inv.node (by simp) ?_ ?_
          · intro p hp
            rw [List.mem_singleton] at hp
            subst hp
            simpa [fragHead] using hk1c
          · intro p hp
            rw [List.mem_singleton] at hp
            subst hp
            exact Inv.node hnodup hheads hinvs
        · intro c0 hkc _
          exact hkc
      · refine ⟨?_, common, none, _, rfl, ?_⟩
        · refine Inv.node (nodup_insertC (nodup_insertC (by simp))) ?_ ?_
          · intro p hp
            rcases mem_insertC hp with rfl | hp'
            · simpa [fragHead] using h2c
            · rcases mem_insertC hp' with rfl | hp''
              · simpa [fragHead] using h1c
              · cases hp''
          · intro p hp
            rcases mem_insertC hp with rfl | hp'
            · exact Inv_leaf _ _
            · rcases mem_insertC hp' with rfl | hp''
              · exact Inv.node hnodup hheads hinvs
              · cases hp''
        · intro c0 hkc hdisj
          rcases hdisj with htip | hfh
          · cases htip
          · have hkeyh : key.head? = some c0 := by
              simpa [fragHead] using hfh
            have hpos : 0 < longest_common_prefix k key :=
              lcp_pos_of_head_eq hkc hkeyh
            rw [byteTake_head hta (by omega)]
            exact hkc

theorem bind_Inv {t : PatriciaTrie T} {k : Str} {v : T} {t' : PatriciaTrie T}
    (hb : bind t k v = some t') (hinv : Inv t) : Inv t' :=
  (bind_Inv_aux (sizeOf t) t le_rfl k v t' hb hinv).1

theorem bindList_Inv {ps : List (Str × T)} :
    ∀ {t t' : PatriciaTrie T}, bindList t ps = some t' → Inv t → Inv t' := by
  induction ps with
  | nil =>
    intro t t' h hinv
    cases h
    exact hinv
  | cons p ps ih =>
    intro t t' h hinv
    rw [bindList] at h
    split at h
    · cases h
    · next t1 heq => exact ih h (bind_Inv heq hinv)

theorem Reachable_Inv {t : PatriciaTrie T} (h : Reachable t) : Inv t := by
  obtain ⟨ps, hps⟩ := h
  exact bindList_Inv hps Inv.tip

end PatriciaTrie

/-! ### `bind` is total on ASCII inputs and preserves ASCII fragments -/

namespace PatriciaTrie

variable {T : Type}

theorem AsciiT_node {key : Str} {value : Option T}
    {children : List (Char × PatriciaTrie T)}
    (h : AsciiT (Node key value children)) :
    ascii key ∧ ∀ p ∈ children, AsciiT p.2 := by
  cases h with
  | node h1 h2 => exact ⟨h1, h2⟩

theorem AsciiT_leaf {key : Str} (h : ascii key) (value : Option T) :
    AsciiT (Node key value ([] : List (Char × PatriciaTrie T))) := by
  refine AsciiT.node h ?_
  intro p hp
  cases hp

theorem drop_head_exists (s : Str) (n : Nat) (h : n < s.length) :
    ∃ c, (s.drop n).head? = some c := by
  cases hd : s.drop n with
  | nil =>
    have hlen : (s.drop n).length = 0 := by rw [hd]; rfl
    rw [List.length_drop] at hlen
    omega
  | cons c r => exact ⟨c, rfl⟩

theorem bind_total_aux :
    ∀ (N : Nat) (t : PatriciaTrie T), sizeOf t ≤ N →
      ∀ (k : Str) (v : T), AsciiT t → ascii k →
        ∃ t', bind t k v = some t' ∧ AsciiT t' := by
  intro N
  induction N with
  | zero =>
    intro t hsz
    have := sizeOf_pos t
    omega
  | succ N ih =>
    intro t hsz k v hat hak
    cases t with
    | Tip => exact ⟨Node k (some v) [], bind_tip k v, AsciiT_leaf hak (some v)⟩
    | Node key value children =>
      obtain ⟨hakey, hch⟩ := AsciiT_node hat
      have hik : longest_common_prefix k key ≤ k.length := lcp_le_left k key
      have hikey : longest_common_prefix k key ≤ key.length := lcp_le_right k key
      by_cases hek : longest_common_prefix k key = k.length
      · by_cases hekey : longest_common_prefix k key = key.length
        · -- exact update: the two keys are equal
          obtain rfl := eq_of_lcp_both hek hekey
          exact ⟨Node k (some v) children, bind_exact hak value children v,
            AsciiT.node hak hch⟩
        · -- the new key is a strict prefix of the fragment
          have hlt : k.length < key.length := by omega
          obtain ⟨c1, hc1⟩ := drop_head_exists key k.length (by omega)
          refine ⟨Node k (some v) [(c1, Node (key.drop k.length) value children)],
            bind_split_upper hak hakey hek hlt hc1, ?_⟩
          refine AsciiT.node hak ?_
          intro p hp
          rw [List.mem_singleton] at hp
          subst hp
          exact AsciiT.node (ascii_drop hakey _) hch
      · by_cases hekey : longest_common_prefix k key = key.length
        · -- the fragment is a strict prefix of the new key
          have hlt : key.length < k.length := by omega
          obtain ⟨c, hc⟩ := drop_head_exists k key.length (by omega)
          have hak1 : ascii (k.drop key.length) := ascii_drop hak _
          have hsub : ∃ sub,
              add_children (Node key value children) (k.drop key.length) v = some sub ∧
              AsciiT sub := by
            cases hget : getC children c with
            | some n =>
              have hszn : sizeOf n ≤ N := by
                have := getC_sizeOf_node hget key value
                omega
              obtain ⟨sub, hbn, hasub⟩ :=
                ih n hszn (k.drop key.length) v (hch _ (getC_mem hget)) hak1
              exact ⟨sub, by rw [add_children_node_some hc hget]; exact hbn, hasub⟩
            | none =>
              exact ⟨Node (k.drop key.length) (some v) [],
                add_children_node_none hc hget key value v, AsciiT_leaf hak1 (some v)⟩
          obtain ⟨sub, hsub, hasub⟩ := hsub
          refine ⟨Node key value (insertC c sub children),
            bind_grow_some hak hakey hekey hlt hc hsub, ?_⟩
          refine AsciiT.node hakey ?_
          intro p hp
          rcases mem_insertC hp with rfl | hp'
          · exact hasub
          · exact hch _ hp'
        · -- proper divergence: split at the longest common prefix
          have hl1 : longest_common_prefix k key < k.length := by omega
          have hl2 : longest_common_prefix k key < key.length := by omega
          obtain ⟨c1, hc1⟩ := drop_head_exists key ( longest_common_prefix k key) (by omega)
          obtain ⟨c2, hc2⟩ := drop_head_exists k ( longest_common_prefix k key) (by omega)
          have hne : c1 ≠ c2 := by
            intro hcc
            apply lcp_head_ne hl1 hl2
            rw [hc2, hc1, hcc]
          refine ⟨_, bind_split hak hakey hl1 hl2 hc1 hc2 hne, ?_⟩
          refine AsciiT.node (ascii_take hak _) ?_
          intro p hp
          rw [List.mem_cons, List.mem_singleton] at hp
          rcases hp with rfl | rfl
          · exact AsciiT.node (ascii_drop hakey _) hch
          · exact AsciiT_leaf (ascii_drop hak _) (some v)

theorem bind_total {t : PatriciaTrie T} {k : Str} (v : T)
    (hat : AsciiT t) (hak : ascii k) :
    ∃ t', bind t k v = some t' ∧ AsciiT t' :=
  bind_total_aux (sizeOf t) t le_rfl k v hat hak

end PatriciaTrie

/-! ### Further prefix helpers and parallel-lookup lemmas -/

namespace PatriciaTrie

variable {T : Type}

theorem lcp_comm (s t : Str) :
    longest_common_prefix s t = longest_common_prefix t s := by
  induction s generalizing t with
  | nil => simp
  | cons a s ih =>
    cases t with
    | nil => simp
    | cons b t =>
      simp only [lcp_cons]
      by_cases hab : a = b
      · subst hab
        rw [if_pos rfl, if_pos rfl, ih]
      · rw [if_neg hab, if_neg (Ne.symm hab)]

theorem prefix_of_lcp_right {s t : Str}
    (h : longest_common_prefix s t = t.length) : t <+: s := by
  rw [lcp_comm] at h
  exact prefix_of_lcp_left h

theorem append_prefix_iff (s a b : Str) : s ++ a <+: s ++ b ↔ a <+: b := by
  induction s with
  | nil => simp
  | cons c s ih => simpa [List.cons_prefix_cons] using ih

/-- After consuming the fragment, `lookup` depends only on the remaining key,
the value and the children, not on the fragment itself. -/
theorem lookup_append_congr (f g : Str) (value : Option T)
    (children : List (Char × PatriciaTrie T)) (r : Str) :
    lookup (Node f value children) (f ++ r) =
      lookup (Node g value children) (g ++ r) := by
  cases r with
  | nil => rw [List.append_nil, List.append_nil, lookup_frag, lookup_frag]
  | cons c' r'' =>
    cases hg : getC children c' with
    | some n => rw [lookup_append_cons_some hg, lookup_append_cons_some hg]
    | none => rw [lookup_append_cons_none hg, lookup_append_cons_none hg]

/-- With a non-empty remaining key the node's own value is irrelevant too. -/
theorem lookup_append_cons_congr {f g : Str} {value value' : Option T}
    (children : List (Char × PatriciaTrie T)) (c' : Char) (r'' : Str) :
    lookup (Node f value children) (f ++ c' :: r'') =
      lookup (Node g value' children) (g ++ c' :: r'') := by
  cases hg : getC children c' with
  | some n => rw [lookup_append_cons_some hg, lookup_append_cons_some hg]
  | none => rw [lookup_append_cons_none hg, lookup_append_cons_none hg]

theorem lookup_leaf_ne {f : Str} {v : T} {k' : Str} (h : k' ≠ f) :
    lookup (Node f (some v) ([] : List (Char × PatriciaTrie T))) k' = none := by
  by_cases hp : f <+: k'
  · obtain ⟨r, rfl⟩ := hp
    cases r with
    | nil => simp at h
    | cons c r' => exact lookup_append_cons_none (getC_nil c) f (some v) r'
  · exact lookup_mismatch hp _ _

/-! ### After `bind t k v`, looking up `k` yields `v` (ASCII inputs) -/

theorem bind_lookup_self_aux :
    ∀ (N : Nat) (t : PatriciaTrie T), sizeOf t ≤ N →
      ∀ (k : Str) (v : T) (t' : PatriciaTrie T),
        bind t k v = some t' → Inv t → AsciiT t → ascii k →
        lookup t' k = some v := by
  intro N
  induction N with
  | zero =>
    intro t hsz
    have := sizeOf_pos t
    omega
  | succ N ih =>
    intro t hsz k v t' hb hinv hat hak
    cases t with
    | Tip =>
      rw [bind_tip] at hb
      cases hb
      rw [lookup_frag]
    | Node key value children =>
      obtain ⟨hnodup, hheads, hinvs⟩ := Inv_node hinv
      obtain ⟨hakey, hch⟩ := AsciiT_node hat
      have hik : longest_common_prefix k key ≤ k.length := lcp_le_left k key
      have hikey : longest_common_prefix k key ≤ key.length := lcp_le_right k key
      by_cases hek : longest_common_prefix k key = k.length
      · by_cases hekey : longest_common_prefix k key = key.length
        · obtain rfl := eq_of_lcp_both hek hekey
          rw [bind_exact hak value children v] at hb
          cases hb
          rw [lookup_frag]
        · -- new key strict prefix of fragment
          have hlt : k.length < key.length := by omega
          obtain ⟨c1, hc1⟩ := drop_head_exists key k.length (by omega)
          rw [bind_split_upper hak hakey hek hlt hc1] at hb
          cases hb
          rw [lookup_frag]
      · by_cases hekey : longest_common_prefix k key = key.length
        · -- fragment strict prefix of new key
          have hlt : key.length < k.length := by omega
          obtain ⟨rest, rfl⟩ := prefix_of_lcp_right hekey
          have hrest : (key ++ rest).drop key.length = rest := List.drop_left key rest
          have hrlen : rest ≠ [] := by
            intro hr
            subst hr
            simp at hlt
          cases rest with
          | nil => exact absurd rfl hrlen
          | cons c r =>
            have hc : ((key ++ c :: r).drop key.length).head? = some c := by
              rw [hrest]
              rfl
            have hacr : ascii (c :: r) := (ascii_append.mp hak).2
            cases hsubeq : add_children (Node key value children) (c :: r) v with
            | none =>
              rw [bind_grow_none hak hakey hekey hlt hc (by rw [hrest]; exact hsubeq)] at hb
              cases hb
            | some sub =>
              rw [bind_grow_some hak hakey hekey hlt hc (by rw [hrest]; exact hsubeq)] at hb
              cases hb
              rw [lookup_append_cons_some (getC_insertC_self children c sub) key value r]
              obtain ⟨c0, hc0, hcase⟩ := add_children_inv hsubeq
              have hc0c : c = c0 := by simpa using hc0
              subst hc0c
              rcases hcase with ⟨n, hget, hbn⟩ | ⟨hget, rfl⟩
              · have hszn : sizeOf n ≤ N := by
                  have := getC_sizeOf_node hget key value
                  omega
                exact ih n hszn (c :: r) v sub hbn (hinvs _ (getC_mem hget))
                  (hch _ (getC_mem hget)) hacr
              · rw [lookup_frag]
        · -- split at the longest common prefix
          have hl1 : longest_common_prefix k key < k.length := by omega
          have hl2 : longest_common_prefix k key < key.length := by omega
          obtain ⟨c1, hc1⟩ := drop_head_exists key ( longest_common_prefix k key) (by omega)
          obtain ⟨c2, hc2⟩ := drop_head_exists k ( longest_common_prefix k key) (by omega)
          have hne : c1 ≠ c2 := by
            intro hcc
            apply lcp_head_ne hl1 hl2
            rw [hc2, hc1, hcc]
          rw [bind_split hak hakey hl1 hl2 hc1 hc2 hne] at hb
          cases hb
          obtain ⟨r2, hr2⟩ : ∃ r2,
              k.drop ( longest_common_prefix k key) = c2 :: r2 := by
            cases hd : k.drop ( longest_common_prefix k key) with
            | nil => rw [hd] at hc2; cases hc2
            | cons a b =>
              rw [hd] at hc2
              cases hc2
              exact ⟨b, rfl⟩
          have hk : k = k.take ( longest_common_prefix k key) ++ c2 :: r2 := by
            rw [← hr2]
            exact (List.take_append_drop _ k).symm
          have hgc : getC
              [(c1, Node (key.drop ( longest_common_prefix k key)) value children),
               (c2, Node (k.drop ( longest_common_prefix k key)) (some v) [])] c2 =
              some (Node (k.drop ( longest_common_prefix k key)) (some v) []) := by
            rw [getC_cons, if_neg (fun h => hne h.symm), getC_cons, if_pos rfl]
          have hstep := lookup_append_cons_some hgc
            (k.take ( longest_common_prefix k key)) none r2
          rw [← hk] at hstep
          rw [hstep, ← hr2, lookup_frag]

theorem bind_lookup_self {t : PatriciaTrie T} {k : Str} {v : T}
    {t' : PatriciaTrie T} (hb : bind t k v = some t') (hinv : Inv t)
    (hat : AsciiT t) (hak : ascii k) : lookup t' k = some v :=
  bind_lookup_self_aux (sizeOf t) t le_rfl k v t' hb hinv hat hak

end PatriciaTrie

/-! ### `bind` leaves every other key's lookup unchanged (ASCII inputs) -/

namespace PatriciaTrie

variable {T : Type}

theorem bind_lookup_frame_aux :
    ∀ (N : Nat) (t : PatriciaTrie T), sizeOf t ≤ N →
      ∀ (k : Str) (v : T) (t' : PatriciaTrie T),
        bind t k v = some t' → Inv t → AsciiT t → ascii k →
        ∀ k' : Str, k' ≠ k → lookup t' k' = lookup t k' := by
  intro N
  induction N with
  | zero =>
    intro t hsz
    have := sizeOf_pos t
    omega
  | succ N ih =>
    intro t hsz k v t' hb hinv hat hak k' hkk
    cases t with
    | Tip =>
      rw [bind_tip] at hb
      cases hb
      rw [lookup_tip, lookup_leaf_ne hkk]
    | Node key value children =>
      obtain ⟨hnodup, hheads, hinvs⟩ := Inv_node hinv
      obtain ⟨hakey, hch⟩ := AsciiT_node hat
      have hik := lcp_le_left k key
      have hikey := lcp_le_right k key
      by_cases hek : longest_common_prefix k key = k.length
      · by_cases hekey : longest_common_prefix k key = key.length
        · -- exact update
          obtain rfl := eq_of_lcp_both hek hekey
          rw [bind_exact hak value children v] at hb
          cases hb
          by_cases hp : k <+: k'
          · obtain ⟨r, rfl⟩ := hp
            cases r with
            | nil => simp at hkk
            | cons c' r'' => exact lookup_append_cons_congr children c' r''
          · rw [lookup_mismatch hp, lookup_mismatch hp]
        · -- the new key is a strict prefix of the fragment
          have hlt : k.length < key.length := by omega
          obtain ⟨rest, rfl⟩ := prefix_of_lcp_left hek
          have hdl : (k ++ rest).drop k.length = rest := List.drop_left k rest
          have hrne : rest ≠ [] := by
            intro hr
            subst hr
            simp at hlt
          cases rest with
          | nil => exact absurd rfl hrne
          | cons c1 r1 =>
            have hc1 : ((k ++ c1 :: r1).drop k.length).head? = some c1 := by
              rw [hdl]
              rfl
            rw [bind_split_upper hak hakey hek hlt hc1] at hb
            cases hb
            rw [hdl]
            by_cases hpk : k <+: k'
            · obtain ⟨r', rfl⟩ := hpk
              cases r' with
              | nil => simp at hkk
              | cons c' r'' =>
                by_cases hcc : c' = c1
                · rw [hcc]
                  have hgc : getC [(c1, Node (c1 :: r1) value children)] c1 =
                      some (Node (c1 :: r1) value children) := by
                    rw [getC_cons, if_pos rfl]
                  rw [lookup_append_cons_some hgc]
                  by_cases hpp : (c1 :: r1 : Str) <+: c1 :: r''
                  · obtain ⟨rest2, hrest2⟩ := hpp
                    rw [← hrest2, ← List.append_assoc]
                    exact lookup_append_congr (c1 :: r1) (k ++ c1 :: r1) value children rest2
                  · rw [lookup_mismatch hpp]
                    have hnp : ¬ (k ++ c1 :: r1) <+: k ++ c1 :: r'' := by
                      rw [append_prefix_iff]
                      exact hpp
                    rw [lookup_mismatch hnp]
                · have hgc : getC [(c1, Node (c1 :: r1) value children)] c' = none := by
                    rw [getC_cons, if_neg hcc, getC_nil]
                  rw [lookup_append_cons_none hgc]
                  have hnp : ¬ (k ++ c1 :: r1) <+: k ++ c' :: r'' := by
                    rw [append_prefix_iff, List.cons_prefix_cons]
                    intro hcp
                    exact hcc hcp.1.symm
                  rw [lookup_mismatch hnp]
            · rw [lookup_mismatch hpk]
              have hnp : ¬ (k ++ c1 :: r1) <+: k' := by
                intro hpp
                exact hpk ((List.prefix_append k (c1 :: r1)).trans hpp)
              rw [lookup_mismatch hnp]
      · by_cases hekey : longest_common_prefix k key = key.length
        · -- the fragment is a strict prefix of the new key
          have hlt : key.length < k.length := by omega
          obtain ⟨rest, rfl⟩ := prefix_of_lcp_right hekey
          have hdl : (key ++ rest).drop key.length = rest := List.drop_left key rest
          have hrne : rest ≠ [] := by
            intro hr
            subst hr
            simp at hlt
          cases rest with
          | nil => exact absurd rfl hrne
          | cons c r =>
            have hc : ((key ++ c :: r).drop key.length).head? = some c := by
              rw [hdl]
              rfl
            have hacr : ascii (c :: r) := (ascii_append.mp hak).2
            cases hsubeq : add_children (Node key value children) (c :: r) v with
            | none =>
              rw [bind_grow_none hak hakey hekey hlt hc (by rw [hdl]; exact hsubeq)] at hb
              cases hb
            | some sub =>
              rw [bind_grow_some hak hakey hekey hlt hc (by rw [hdl]; exact hsubeq)] at hb
              cases hb
              by_cases hp : key <+: k'
              · obtain ⟨r', rfl⟩ := hp
                cases r' with
                | nil =>
                  simp only [List.append_nil]
                  rw [lookup_frag, lookup_frag]
                | cons c' r'' =>
                  by_cases hcc : c' = c
                  · rw [hcc]
                    rw [hcc] at hkk
                    have hrr : (c :: r'' : Str) ≠ c :: r := by
                      intro h
                      apply hkk
                      rw [h]
                    rw [lookup_append_cons_some (getC_insertC_self children c sub)]
                    obtain ⟨c0, hc0, hcase⟩ := add_children_inv hsubeq
                    have hc0c : c = c0 := by simpa using hc0
                    subst hc0c
                    rcases hcase with ⟨n, hget, hbn⟩ | ⟨hget, rfl⟩
                    · rw [lookup_append_cons_some hget]
                      have hszn : sizeOf n ≤ N := by
                        have := getC_sizeOf_node hget key value
                        omega
                      exact ih n hszn (c :: r) v sub hbn (hinvs _ (getC_mem hget))
                        (hch _ (getC_mem hget)) hacr (c :: r'') hrr
                    · rw [lookup_append_cons_none hget]
                      exact lookup_leaf_ne hrr
                  · have hgetc : getC (insertC c sub children) c' = getC children c' :=
                      getC_insertC_ne children sub hcc
                    cases hget : getC children c' with
                    | some n =>
                      rw [lookup_append_cons_some (hgetc.trans hget),
                        lookup_append_cons_some hget]
                    | none =>
                      rw [lookup_append_cons_none (hgetc.trans hget),
                        lookup_append_cons_none hget]
              · rw [lookup_mismatch hp, lookup_mismatch hp]
        · -- split at the longest common prefix
          have hl1 : longest_common_prefix k key < k.length := by omega
          have hl2 : longest_common_prefix k key < key.length := by omega
          obtain ⟨c1, hc1⟩ := drop_head_exists key ( longest_common_prefix k key) (by omega)
          obtain ⟨c2, hc2⟩ := drop_head_exists k ( longest_common_prefix k key) (by omega)
          have hne : c1 ≠ c2 := by
            intro hcc
            apply lcp_head_ne hl1 hl2
            rw [hc2, hc1, hcc]
          rw [bind_split hak hakey hl1 hl2 hc1 hc2 hne] at hb
          cases hb
          obtain ⟨rk1, hr1⟩ : ∃ rk1,
              key.drop ( longest_common_prefix k key) = c1 :: rk1 := by
            cases hd : key.drop ( longest_common_prefix k key) with
            | nil => rw [hd] at hc1; cases hc1
            | cons a b =>
              rw [hd] at hc1
              cases hc1
              exact ⟨b, rfl⟩
          obtain ⟨rk2, hr2⟩ : ∃ rk2,
              k.drop ( longest_common_prefix k key) = c2 :: rk2 := by
            cases hd : k.drop ( longest_common_prefix k key) with
            | nil => rw [hd] at hc2; cases hc2
            | cons a b =>
              rw [hd] at hc2
              cases hc2
              exact ⟨b, rfl⟩
          obtain ⟨common, hcom⟩ :
              ∃ q, k.take ( longest_common_prefix k key) = q := ⟨_, rfl⟩
          have htk : common.length = longest_common_prefix k key := by
            rw [← hcom, List.length_take]
            omega
          have hkeyeq : key = common ++ c1 :: rk1 := by
            conv_lhs => rw [← List.take_append_drop ( longest_common_prefix k key) key]
            rw [hr1, ← lcp_take_eq k key, hcom]
          have hkeq : k = common ++ c2 :: rk2 := by
            conv_lhs => rw [← List.take_append_drop ( longest_common_prefix k key) k]
            rw [hr2, hcom]
          rw [hr1, hr2, hcom]
          by_cases hpc : common <+: k'
          · obtain ⟨r', rfl⟩ := hpc
            cases r' with
            | nil =>
              simp only [List.append_nil]
              rw [lookup_frag]
              have hklen : key.length =
                  longest_common_prefix k key + rk1.length + 1 := by
                conv_lhs => rw [hkeyeq]
                rw [List.length_append, htk, List.length_cons]
                omega
              have hnp : ¬ key <+: common := by
                intro hpp
                have hle := hpp.length_le
                rw [htk] at hle
                omega
              rw [lookup_mismatch hnp]
            | cons c' r'' =>
              by_cases hcc1 : c' = c1
              · rw [hcc1]
                have hgc : getC
                    [(c1, Node (c1 :: rk1) value children),
                     (c2, Node (c2 :: rk2) (some v) [])] c1 =
                    some (Node (c1 :: rk1) value children) := by
                  rw [getC_cons, if_pos rfl]
                rw [lookup_append_cons_some hgc]
                by_cases hpp : (c1 :: rk1 : Str) <+: c1 :: r''
                · obtain ⟨rest2, hrest2⟩ := hpp
                  rw [← hrest2, ← List.append_assoc, ← hkeyeq]
                  exact lookup_append_congr (c1 :: rk1) key value children rest2
                · rw [lookup_mismatch hpp]
                  have hnp : ¬ key <+: common ++ c1 :: r'' := by
                    rw [hkeyeq, append_prefix_iff]
                    exact hpp
                  rw [lookup_mismatch hnp]
              · by_cases hcc2 : c' = c2
                · rw [hcc2]
                  rw [hcc2] at hkk
                  have hgc : getC
                      [(c1, Node (c1 :: rk1) value children),
                       (c2, Node (c2 :: rk2) (some v) [])] c2 =
                      some (Node (c2 :: rk2) (some v) []) := by
                    rw [getC_cons, if_neg (fun h => hne h.symm), getC_cons, if_pos rfl]
                  rw [lookup_append_cons_some hgc]
                  have hrr : (c2 :: r'' : Str) ≠ c2 :: rk2 := by
                    intro h
                    apply hkk
                    conv_rhs => rw [hkeq]
                    rw [h]
                  rw [lookup_leaf_ne hrr]
                  have hnp : ¬ key <+: common ++ c2 :: r'' := by
                    rw [hkeyeq, append_prefix_iff, List.cons_prefix_cons]
                    intro hcp
                    exact hne hcp.1
                  rw [lookup_mismatch hnp]
                · have hgc : getC
                      [(c1, Node (c1 :: rk1) value children),
                       (c2, Node (c2 :: rk2) (some v) [])] c' = none := by
                    rw [getC_cons, if_neg hcc1, getC_cons, if_neg hcc2, getC_nil]
                  rw [lookup_append_cons_none hgc]
                  have hnp : ¬ key <+: common ++ c' :: r'' := by
                    rw [hkeyeq, append_prefix_iff, List.cons_prefix_cons]
                    intro hcp
                    exact hcc1 hcp.1.symm
                  rw [lookup_mismatch hnp]
          · rw [lookup_mismatch hpc]
            have hnp : ¬ key <+: k' := by
              intro hpp
              apply hpc
              refine List.IsPrefix.trans ?_ hpp
              rw [hkeyeq]
              exact List.prefix_append _ _
            rw [lookup_mismatch hnp]

theorem bind_lookup_frame {t : PatriciaTrie T} {k : Str} {v : T}
    {t' : PatriciaTrie T} (hb : bind t k v = some t') (hinv : Inv t)
    (hat : AsciiT t) (hak : ascii k) {k' : Str} (hkk : k' ≠ k) :
    lookup t' k' = lookup t k' :=
  bind_lookup_frame_aux (sizeOf t) t le_rfl k v t' hb hinv hat hak k' hkk

end PatriciaTrie

/-! ### Folding bind over a list of pairs -/

namespace PatriciaTrie

variable {T : Type}

@[simp] theorem bindList_nil (t : PatriciaTrie T) : bindList t [] = some t := rfl

theorem bindList_cons_some {t t1 : PatriciaTrie T} {k : Str} {v : T}
    {ps : List (Str × T)} (hb : bind t k v = some t1) :
    bindList t ((k, v) :: ps) = bindList t1 ps := by
  simp only [bindList, hb]

theorem bindList_cons_none {t : PatriciaTrie T} {k : Str} {v : T}
    {ps : List (Str × T)} (hb : bind t k v = none) :
    bindList t ((k, v) :: ps) = none := by
  simp only [bindList, hb]

theorem bind_AsciiT {t t' : PatriciaTrie T} {k : Str} {v : T}
    (hb : bind t k v = some t') (hat : AsciiT t) (hak : ascii k) :
    AsciiT t' := by
  obtain ⟨t2, hb2, hat2⟩ := bind_total v hat hak
  rw [hb] at hb2
  cases hb2
  exact hat2

theorem bindList_ok :
    ∀ (ps : List (Str × T)) (t : PatriciaTrie T),
      Inv t → AsciiT t → (∀ p ∈ ps, ascii p.1) → (ps.map Prod.fst).Nodup →
      ∃ t', bindList t ps = some t' ∧ Inv t' ∧ AsciiT t' ∧
        (∀ p ∈ ps, lookup t' p.1 = some p.2) ∧
        (∀ k', k' ∉ ps.map Prod.fst → lookup t' k' = lookup t k') := by
  intro ps
  induction ps with
  | nil =>
    intro t hinv hat _ _
    refine ⟨t, rfl, hinv, hat, ?_, ?_⟩
    · intro p hp
      cases hp
    · intro k' _
      rfl
  | cons p ps ih =>
    intro t hinv hat hascii hnodup
    obtain ⟨k, v⟩ := p
    have hak : ascii k := hascii _ (List.mem_cons_self _ _)
    obtain ⟨t1, hb, hat1⟩ := bind_total v hat hak
    have hinv1 : Inv t1 := bind_Inv hb hinv
    rw [List.map_cons, List.nodup_cons] at hnodup
    obtain ⟨t', hbl, hinv', hat', hlook, hframe⟩ :=
      ih t1 hinv1 hat1 (fun q hq => hascii q (List.mem_cons_of_mem _ hq)) hnodup.2
    refine ⟨t', by rw [bindList_cons_some hb]; exact hbl, hinv', hat', ?_, ?_⟩
    · intro q hq
      rw [List.mem_cons] at hq
      rcases hq with rfl | hq
      · rw [hframe k hnodup.1]
        exact bind_lookup_self hb hinv hat hak
      · exact hlook q hq
    · intro k' hk'
      rw [List.map_cons, List.mem_cons] at hk'
      push_neg at hk'
      rw [hframe k' hk'.2]
      exact bind_lookup_frame hb hinv hat hak hk'.1

theorem bindList_AsciiT {ps : List (Str × T)} :
    ∀ {t t' : PatriciaTrie T}, bindList t ps = some t' → AsciiT t →
      (∀ p ∈ ps, ascii p.1) → AsciiT t' := by
  induction ps with
  | nil =>
    intro t t' h hat _
    cases h
    exact hat
  | cons p ps ih =>
    intro t t' h hat hascii
    rw [bindList] at h
    split at h
    · cases h
    · next t1 heq =>
      exact ih h (bind_AsciiT heq hat (hascii _ (List.mem_cons_self _ _)))
        (fun q hq => hascii q (List.mem_cons_of_mem _ hq))

theorem ReachableA_Inv_AsciiT {t : PatriciaTrie T} (h : ReachableA t) :
    Inv t ∧ AsciiT t := by
  obtain ⟨ps, hascii, hps⟩ := h
  exact ⟨bindList_Inv hps Inv.tip, bindList_AsciiT hps AsciiT.tip hascii⟩

end PatriciaTrie

/-! ### `lookup` coincides with the spec-level notion of a bound key -/

namespace PatriciaTrie

variable {T : Type}

theorem lookup_Bound_aux :
    ∀ (N : Nat) (t : PatriciaTrie T), sizeOf t ≤ N →
      ∀ (k : Str) (v : T), Inv t → lookup t k = some v → Bound t k v := by
  intro N
  induction N with
  | zero =>
    intro t hsz
    have := sizeOf_pos t
    omega
  | succ N ih =>
    intro t hsz k v hinv hl
    cases t with
    | Tip => rw [lookup_tip] at hl; cases hl
    | Node key value children =>
      obtain ⟨hnodup, hheads, hinvs⟩ := Inv_node hinv
      by_cases hp : key <+: k
      · obtain ⟨r, rfl⟩ := hp
        cases r with
        | nil =>
          rw [List.append_nil] at hl ⊢
          rw [lookup_frag] at hl
          exact Bound.here hl
        | cons c r' =>
          cases hget : getC children c with
          | none => rw [lookup_append_cons_none hget] at hl; cases hl
          | some t'' =>
            rw [lookup_append_cons_some hget] at hl
            have hszn : sizeOf t'' ≤ N := by
              have := getC_sizeOf_node hget key value
              omega
            exact Bound.there rfl (getC_mem hget)
              (ih t'' hszn (c :: r') v (hinvs _ (getC_mem hget)) hl)
      · rw [lookup_mismatch hp] at hl
        cases hl

theorem Bound_lookup {t : PatriciaTrie T} {k : Str} {v : T}
    (hb : Bound t k v) : Inv t → lookup t k = some v := by
  induction hb with
  | here hval =>
    intro _
    rw [lookup_frag]
    exact hval
  | there hhead hmem hb' ih =>
    intro hinv
    obtain ⟨hnodup, hheads, hinvs⟩ := Inv_node hinv
    next key value children c t' r v =>
      cases r with
      | nil => cases hhead
      | cons c0 r' =>
        have hc0 : c0 = c := by simpa using hhead
        subst hc0
        rw [lookup_append_cons_some (getC_of_mem hnodup hmem)]
        exact ih (hinvs _ hmem)

theorem lookup_none_iff_not_Bound {t : PatriciaTrie T} (hinv : Inv t) (k : Str) :
    lookup t k = none ↔ ¬ ∃ v, Bound t k v := by
  constructor
  · intro hn ⟨v, hv⟩
    rw [Bound_lookup hv hinv] at hn
    cases hn
  · intro hnb
    cases hl : lookup t k with
    | none => rfl
    | some v =>
      exact absurd ⟨v, lookup_Bound_aux (sizeOf t) t le_rfl k v hinv hl⟩ hnb

/-! ### Consequences of the invariant: fragments below the root -/

theorem fragHead_props {t0 : PatriciaTrie T} {c : Char}
    (h : fragHead t0 = some c) : isNodeP t0 ∧ fragNonempty t0 := by
  cases t0 with
  | Tip => cases h
  | Node key value children =>
    refine ⟨trivial, ?_⟩
    intro hk
    subst hk
    cases h

theorem Inv_NoEmptyFragBelow {t : PatriciaTrie T} (h : Inv t) :
    NoEmptyFragBelow t := by
  induction h with
  | tip => exact NoEmptyFragBelow.tip
  | node hnodup hheads hinvs ih =>
    refine NoEmptyFragBelow.node ?_ ?_
    · intro p hp
      exact (fragHead_props (hheads p hp)).2
    · intro p hp
      exact ih p hp

theorem Inv_NoTipChild {t : PatriciaTrie T} (h : Inv t) : NoTipChild t := by
  induction h with
  | tip => exact NoTipChild.tip
  | node hnodup hheads hinvs ih =>
    refine NoTipChild.node ?_ ?_
    · intro p hp
      exact (fragHead_props (hheads p hp)).1
    · intro p hp
      exact ih p hp

/-! ### Empty-fragment roots carry a value only if the empty key was bound -/

theorem bind_rootEmptyValNone {t t' : PatriciaTrie T} {k : Str} {v : T}
    (hb : bind t k v = some t') (hk : k ≠ [])
    (h : rootEmptyValNone t) : rootEmptyValNone t' := by
  cases t with
  | Tip =>
    rw [bind_tip] at hb
    cases hb
    intro val ch heq
    injection heq with h1 h2 h3
    exact absurd h1 hk
  | Node key value children =>
    rcases bind_node_inv hb with
      ⟨_, _, rfl⟩ |
      ⟨_, _, k1, c, sub, _, _, _, rfl⟩ |
      ⟨_, _, k1, c1, _, _, rfl⟩ |
      ⟨_, _, common, k1, k2, c1, c2, _, _, _, _, _, rfl⟩
    · intro val ch heq
      injection heq with h1 h2 h3
      exact absurd h1 hk
    · intro val ch heq
      injection heq with h1 h2 h3
      subst h1
      exact h2 ▸ h value children rfl
    · intro val ch heq
      injection heq with h1 h2 h3
      exact absurd h1 hk
    · intro val ch heq
      injection heq with h1 h2 h3
      exact h2.symm

theorem bindList_rootEmptyValNone {ps : List (Str × T)} :
    ∀ {t t' : PatriciaTrie T}, bindList t ps = some t' →
      (∀ p ∈ ps, p.1 ≠ []) → rootEmptyValNone t → rootEmptyValNone t' := by
  induction ps with
  | nil =>
    intro t t' h _ hr
    cases h
    exact hr
  | cons p ps ih =>
    intro t t' h hne hr
    rw [bindList] at h
    split at h
    · cases h
    · next t1 heq =>
      exact ih h (fun q hq => hne q (List.mem_cons_of_mem _ hq))
        (bind_rootEmptyValNone heq (hne p (List.mem_cons_self _ _)) hr)

end PatriciaTrie

/-! ### Binding the empty key -/

namespace PatriciaTrie

variable {T : Type}

theorem lookup_nil_frag (value : Option T) (children) :
    lookup (Node ([] : Str) value children) [] = value :=
  lookup_frag [] value children

theorem bind_empty_key {t : PatriciaTrie T} (hinv : Inv t) (v : T) :
    ∃ t', bind t [] v = some t' ∧ lookup t' [] = some v ∧
      NoEmptyFragBelow t' := by
  cases t with
  | Tip =>
    refine ⟨Node [] (some v) [], bind_tip [] v, lookup_nil_frag (some v) [], ?_⟩
    refine NoEmptyFragBelow.node ?_ ?_ <;> intro p hp <;> cases hp
  | Node key value children =>
    obtain ⟨hnodup, hheads, hinvs⟩ := Inv_node hinv
    by_cases hkey : key = []
    · subst hkey
      rw [bind_exact ascii_nil value children v]
      refine ⟨Node [] (some v) children, rfl, lookup_nil_frag (some v) children, ?_⟩
      refine NoEmptyFragBelow.node ?_ ?_
      · intro p hp
        exact (fragHead_props (hheads p hp)).2
      · intro p hp
        exact Inv_NoEmptyFragBelow (hinvs p hp)
    · obtain ⟨c, cs, rfl⟩ : ∃ c cs, key = c :: cs := by
        cases key with
        | nil => exact absurd rfl hkey
        | cons c cs => exact ⟨c, cs, rfl⟩
      have hcp := csize_pos c
      refine ⟨Node [] (some v) [(c, Node (c :: cs) value children)], ?_, ?_, ?_⟩
      · rw [bind.eq_2]
        rw [if_neg ?hc1, if_neg ?hc2, if_pos ?hc3]
        case hc1 =>
          simp only [lcp_nil_left, byteLen_nil, byteLen_cons]
          intro h
          omega
        case hc2 =>
          simp only [lcp_nil_left, byteLen_cons]
          omega
        case hc3 =>
          simp only [lcp_nil_left, byteLen_nil]
        rw [lcp_nil_left, byteDrop_zero]
        have hfc : first_char_unwrap (c :: cs) = some c := rfl
        simp only [hfc, insertC_nil]
      · exact lookup_nil_frag (some v) _
      · refine NoEmptyFragBelow.node ?_ ?_
        · intro p hp
          rw [List.mem_singleton] at hp
          subst hp
          intro h
          cases h
        · intro p hp
          rw [List.mem_singleton] at hp
          subst hp
          exact Inv_NoEmptyFragBelow (Inv.node hnodup hheads hinvs)

end PatriciaTrie

/-! ### Rebinding the same key: structural idempotence -/

namespace PatriciaTrie

variable {T : Type}

theorem insertC_insertC (c : Char) (x y : PatriciaTrie T)
    (l : List (Char × PatriciaTrie T)) :
    insertC c x (insertC c y l) = insertC c x l := by
  induction l with
  | nil => simp
  | cons p rest ih =>
    obtain ⟨c', t'⟩ := p
    by_cases hc : c = c'
    · simp [hc]
    · simp [hc, ih]

theorem bind_rebind_aux :
    ∀ (N : Nat) (t : PatriciaTrie T), sizeOf t ≤ N →
      ∀ (k : Str) (v1 v2 : T) (t1 : PatriciaTrie T),
        bind t k v1 = some t1 → AsciiT t → ascii k →
        bind t1 k v2 = bind t k v2 := by
  intro N
  induction N with
  | zero =>
    intro t hsz
    have := sizeOf_pos t
    omega
  | succ N ih =>
    intro t hsz k v1 v2 t1 hb hat hak
    cases t with
    | Tip =>
      rw [bind_tip] at hb
      cases hb
      rw [bind_exact hak (some v1) [] v2, bind_tip]
    | Node key value children =>
      obtain ⟨hakey, hch⟩ := AsciiT_node hat
      have hik := lcp_le_left k key
      have hikey := lcp_le_right k key
      by_cases hek : longest_common_prefix k key = k.length
      · by_cases hekey : longest_common_prefix k key = key.length
        · obtain rfl := eq_of_lcp_both hek hekey
          rw [bind_exact hak value children v1] at hb
          cases hb
          rw [bind_exact hak (some v1) children v2, bind_exact hak value children v2]
        · -- new key strict prefix of the fragment; rebind hits the exact case
          have hlt : k.length < key.length := by omega
          obtain ⟨rest, rfl⟩ := prefix_of_lcp_left hek
          have hdl : (k ++ rest).drop k.length = rest := List.drop_left k rest
          have hrne : rest ≠ [] := by
            intro hr
            subst hr
            simp at hlt
          cases rest with
          | nil => exact absurd rfl hrne
          | cons c1 r1 =>
            have hc1 : ((k ++ c1 :: r1).drop k.length).head? = some c1 := by
              rw [hdl]
              rfl
            rw [bind_split_upper hak hakey hek hlt hc1] at hb
            cases hb
            rw [hdl]
            rw [bind_exact hak (some v1) _ v2,
              bind_split_upper hak hakey hek hlt hc1, hdl]
      · by_cases hekey : longest_common_prefix k key = key.length
        · -- fragment strict prefix of the new key; rebind re-descends
          have hlt : key.length < k.length := by omega
          obtain ⟨rest, rfl⟩ := prefix_of_lcp_right hekey
          have hdl : (key ++ rest).drop key.length = rest := List.drop_left key rest
          have hrne : rest ≠ [] := by
            intro hr
            subst hr
            simp at hlt
          cases rest with
          | nil => exact absurd rfl hrne
          | cons c r =>
            have hc : ((key ++ c :: r).drop key.length).head? = some c := by
              rw [hdl]
              rfl
            have hacr : ascii (c :: r) := (ascii_append.mp hak).2
            cases hsubeq : add_children (Node key value children) (c :: r) v1 with
            | none =>
              rw [bind_grow_none hak hakey hekey hlt hc (by rw [hdl]; exact hsubeq)] at hb
              cases hb
            | some sub =>
              rw [bind_grow_some hak hakey hekey hlt hc (by rw [hdl]; exact hsubeq)] at hb
              cases hb
              -- the rebind recurses into `sub`; identify both sides
              have hasub : AsciiT sub := by
                obtain ⟨c0, hc0, hcase⟩ := add_children_inv hsubeq
                have hc0c : c = c0 := by simpa using hc0
                subst hc0c
                rcases hcase with ⟨n, hget, hbn⟩ | ⟨hget, rfl⟩
                · exact bind_AsciiT hbn (hch _ (getC_mem hget)) hacr
                · exact AsciiT_leaf hacr (some v1)
              obtain ⟨s2, hbs, has2⟩ := bind_total v2 hasub hacr
              have hsub2 : add_children (Node key value (insertC c sub children))
                  (c :: r) v2 = some s2 := by
                rw [add_children_node_some List.head?_cons (getC_insertC_self children c sub)]
                exact hbs
              rw [bind_grow_some hak hakey hekey hlt hc (by rw [hdl]; exact hsub2)]
              obtain ⟨c0, hc0, hcase⟩ := add_children_inv hsubeq
              have hc0c : c = c0 := by simpa using hc0
              subst hc0c
              rcases hcase with ⟨n, hget, hbn⟩ | ⟨hget, rfl⟩
              · have hszn : sizeOf n ≤ N := by
                  have := getC_sizeOf_node hget key value
                  omega
                have hrebind : bind sub (c :: r) v2 = bind n (c :: r) v2 :=
                  ih n hszn (c :: r) v1 v2 sub hbn (hch _ (getC_mem hget)) hacr
                have hsubd : add_children (Node key value children) (c :: r) v2 =
                    some s2 := by
                  rw [add_children_node_some List.head?_cons hget, ← hrebind]
                  exact hbs
                rw [bind_grow_some hak hakey hekey hlt hc (by rw [hdl]; exact hsubd)]
                rw [insertC_insertC]
              · have hbs2 : bind (Node (c :: r) (some v1) []) (c :: r) v2 =
                    some (Node (c :: r) (some v2) []) :=
                  bind_exact hacr (some v1) [] v2
                rw [hbs2] at hbs
                cases hbs
                have hsubd : add_children (Node key value children) (c :: r) v2 =
                    some (Node (c :: r) (some v2) []) :=
                  add_children_node_none List.head?_cons hget key value v2
                rw [bind_grow_some hak hakey hekey hlt hc (by rw [hdl]; exact hsubd)]
                rw [insertC_insertC]
        · -- split; rebind descends into the fresh leaf
          have hl1 : longest_common_prefix k key < k.length := by omega
          have hl2 : longest_common_prefix k key < key.length := by omega
          obtain ⟨c1, hc1⟩ := drop_head_exists key ( longest_common_prefix k key) (by omega)
          obtain ⟨c2, hc2⟩ := drop_head_exists k ( longest_common_prefix k key) (by omega)
          have hne : c1 ≠ c2 := by
            intro hcc
            apply lcp_head_ne hl1 hl2
            rw [hc2, hc1, hcc]
          rw [bind_split hak hakey hl1 hl2 hc1 hc2 hne] at hb
          cases hb
          rw [bind_split hak hakey hl1 hl2 hc1 hc2 hne]
          obtain ⟨rk2, hr2⟩ : ∃ rk2,
              k.drop ( longest_common_prefix k key) = c2 :: rk2 := by
            cases hd : k.drop ( longest_common_prefix k key) with
            | nil => rw [hd] at hc2; cases hc2
            | cons a b =>
              rw [hd] at hc2
              cases hc2
              exact ⟨b, rfl⟩
          obtain ⟨common, hcom⟩ :
              ∃ q, k.take ( longest_common_prefix k key) = q := ⟨_, rfl⟩
          have htk : common.length = longest_common_prefix k key := by
            rw [← hcom, List.length_take]
            omega
          have hkeq : k = common ++ c2 :: rk2 := by
            conv_lhs => rw [← List.take_append_drop ( longest_common_prefix k key) k]
            rw [hr2, hcom]
          have hacom : ascii common := by
            rw [← hcom]
            exact ascii_take hak _
          have hdc : k.drop common.length = c2 :: rk2 := by
            rw [htk]
            exact hr2
          have hacr2 : ascii (c2 :: rk2) := by
            rw [← hdc]
            exact ascii_drop hak _
          have hlc : longest_common_prefix k common = common.length := by
            rw [lcp_comm]
            apply lcp_of_prefix
            rw [hkeq]
            exact List.prefix_append _ _
          have hltc : common.length < k.length := by omega
          have hcc2 : (k.drop common.length).head? = some c2 := by
            rw [hdc]
            rfl
          rw [hcom, hr2]
          have hsubd : add_children
              (Node common none
                [(c1, Node (key.drop ( longest_common_prefix k key)) value children),
                 (c2, Node (c2 :: rk2) (some v1) [])])
              (k.drop common.length) v2 =
              some (Node (c2 :: rk2) (some v2) []) := by
            rw [hdc]
            have hgc : getC
                [(c1, Node (key.drop ( longest_common_prefix k key)) value children),
                 (c2, Node (c2 :: rk2) (some v1) [])] c2 =
                some (Node (c2 :: rk2) (some v1) []) := by
              rw [getC_cons, if_neg (fun h => hne h.symm), getC_cons, if_pos rfl]
            rw [add_children_node_some List.head?_cons hgc]
            exact bind_exact hacr2 (some v1) [] v2
          rw [bind_grow_some hak hacom hlc hltc hcc2 hsubd]
          rw [insertC_cons, if_neg (fun h => hne h.symm), insertC_cons, if_pos rfl]

theorem bind_rebind {t : PatriciaTrie T} {k : Str} {v1 v2 : T}
    {t1 : PatriciaTrie T} (hb : bind t k v1 = some t1) (hat : AsciiT t)
    (hak : ascii k) : bind t1 k v2 = bind t k v2 :=
  bind_rebind_aux (sizeOf t) t le_rfl k v1 v2 t1 hb hat hak

end PatriciaTrie

/-! ### Small helpers for concrete reachable tries -/

namespace PatriciaTrie

variable {T : Type}

theorem bind_empty (k : Str) (v : T) :
    bind (empty : PatriciaTrie T) k v = some (Node k (some v) []) :=
  bind_tip k v

theorem reachable_leaf (k : Str) (v : T) :
    Reachable (Node k (some v) ([] : List (Char × PatriciaTrie T))) :=
  ⟨[(k, v)], by rw [bindList_cons_some (bind_empty k v), bindList_nil]⟩

theorem reachableA_leaf {k : Str} (hk : ascii k) (v : T) :
    ReachableA (Node k (some v) ([] : List (Char × PatriciaTrie T))) := by
  refine ⟨[(k, v)], ?_, by rw [bindList_cons_some (bind_empty k v), bindList_nil]⟩
  intro p hp
  rw [List.mem_singleton] at hp
  subst hp
  exact hk

end PatriciaTrie

/-! ## The claims -/

namespace PatriciaTrie

variable {T : Type}

set_option maxRecDepth 4000 in
unseal bind add_children lookup in
/-- C1, counterexample to the claim as stated: the keys `"ααx"` and `"ααy"`
are pairwise distinct, both binds succeed, yet looking up `"ααx"` afterwards
yields "not found" instead of its value 0 — the character-level longest
common prefix 2 is used as a byte index into the keys, splitting in the
middle of the second `α` and storing both children under the same first
character, so the second insert overwrites the first. -/
theorem C1_cex_nonascii_key_lost :
    (['α', 'α', 'x'] : Str) ≠ ['α', 'α', 'y'] ∧
    Option.map (fun t => lookup t ['α', 'α', 'x'])
      (bindList (empty : PatriciaTrie Nat)
        [(['α', 'α', 'x'], 0), (['α', 'α', 'y'], 1)]) = some none := by
  refine ⟨by decide, ?_⟩
  simp [bindList, empty, bind, add_children, lookup, byteLen,
    byteDrop, byteTake, csize, getC, insertC, first_char_unwrap,
    lcp_cons, lcp_nil_left, lcp_nil_right]

/-- C1 (amended to ASCII keys): for every sequence of `(key, value)` pairs
with pairwise-distinct ASCII keys, binding them in any order into the trie
returned by `empty()` succeeds, and `lookup` on any one of those keys
returns the value that was bound for it. -/
theorem C1_round_trip_ascii (ps : List (Str × T))
    (hascii : ∀ p ∈ ps, ascii p.1) (hnodup : (ps.map Prod.fst).Nodup) :
    ∃ t, bindList (empty : PatriciaTrie T) ps = some t ∧
      ∀ p ∈ ps, lookup t p.1 = some p.2 := by
  obtain ⟨t, hbl, _, _, hlook, _⟩ :=
    bindList_ok ps (empty : PatriciaTrie T) Inv.tip AsciiT.tip hascii hnodup
  exact ⟨t, hbl, hlook⟩

/-- Witness for C1 at the concrete scenario of the repository's test:
`test→0, slow→1, water→2, slower→3, tester→4, te→5, toast→6, toad→7`. -/
theorem C1_round_trip_ascii_witness :
    ∃ t, bindList (empty : PatriciaTrie Nat)
        [("test".toList, 0), ("slow".toList, 1), ("water".toList, 2),
         ("slower".toList, 3), ("tester".toList, 4), ("te".toList, 5),
         ("toast".toList, 6), ("toad".toList, 7)] = some t ∧
      ∀ p ∈ [(("test".toList : Str), (0 : Nat)), ("slow".toList, 1),
          ("water".toList, 2), ("slower".toList, 3), ("tester".toList, 4),
          ("te".toList, 5), ("toast".toList, 6), ("toad".toList, 7)],
        lookup t p.1 = some p.2 :=
  C1_round_trip_ascii _ (by decide) (by decide)

/-- C2: on every trie built from `empty()` by `bind` calls, `lookup k`
signals "not found" (the `none` result, modelling the reference's
`element does not exist` / `lookup on empty tree.` failures) exactly when
`k` is not bound in the trie, where `Bound` is the spec's notion of a value
reachable by prefix traversal; lookup on the empty trie, on a key sharing
no prefix with any stored key, and on a strict prefix of a stored key that
was never bound are all instances of the right-hand side. -/
theorem C2_lookup_none_iff_unbound (t : PatriciaTrie T) (hre : Reachable t)
    (k : Str) : lookup t k = none ↔ ¬ ∃ v, Bound t k v :=
  lookup_none_iff_not_Bound (Reachable_Inv hre) k

/-- Witness for C2 on the trie holding only `"te" → 5`, queried at the
strict prefix `"t"`. -/
theorem C2_lookup_none_iff_unbound_witness :
    lookup (Node ['t', 'e'] (some (5 : Nat)) []) ['t'] = none ↔
      ¬ ∃ v, Bound (Node ['t', 'e'] (some (5 : Nat)) []) ['t'] v :=
  C2_lookup_none_iff_unbound _ (reachable_leaf ['t', 'e'] 5) ['t']

set_option maxRecDepth 4000 in
unseal bind add_children lookup in
/-- C3, counterexample to the claim as stated: with the reachable trie
holding `"ββx" → 0`, binding the different key `"ββy"` destroys the binding
of `"ββx"` (its lookup changes from `some 0` to `none`), because the
char-count/byte-index confusion makes the split store both children under
the same character. -/
theorem C3_cex_frame_violated :
    (['β', 'β', 'x'] : Str) ≠ ['β', 'β', 'y'] ∧
    Option.bind (bind (empty : PatriciaTrie Nat) ['β', 'β', 'x'] 0)
      (fun t1 => Option.map
        (fun t2 => (lookup t1 ['β', 'β', 'x'], lookup t2 ['β', 'β', 'x']))
        (bind t1 ['β', 'β', 'y'] 1)) = some (some 0, none) := by
  refine ⟨by decide, ?_⟩
  simp [bindList, empty, bind, add_children, lookup, byteLen,
    byteDrop, byteTake, csize, getC, insertC, first_char_unwrap,
    lcp_cons, lcp_nil_left, lcp_nil_right]

/-- C3 (amended to ASCII keys): for every trie built by `bind`s of ASCII
keys and every ASCII key `k`, binding `k` succeeds and the lookup of any
other key `k'` is unchanged; the receiver trie itself is a pure value that
`bind` never mutates (immutability is inherent in the embedding). -/
theorem C3_frame_ascii (t : PatriciaTrie T) (hre : ReachableA t) {k : Str}
    (hak : ascii k) (v : T) (k' : Str) (hne : k' ≠ k) :
    ∃ t', bind t k v = some t' ∧ lookup t' k' = lookup t k' := by
  obtain ⟨hinv, hat⟩ := ReachableA_Inv_AsciiT hre
  obtain ⟨t', hb, _⟩ := bind_total v hat hak
  exact ⟨t', hb, bind_lookup_frame hb hinv hat hak hne⟩

/-- Witness for C3: binding `"b"` into the trie holding `"a" → 1` leaves
the lookup of `"a"` unchanged. -/
theorem C3_frame_ascii_witness :
    ∃ t', bind (Node ['a'] (some (1 : Nat)) []) ['b'] 2 = some t' ∧
      lookup t' ['a'] = lookup (Node ['a'] (some (1 : Nat)) []) ['a'] :=
  C3_frame_ascii _ (reachableA_leaf (by decide) 1) (by decide) 2 ['a'] (by decide)

set_option maxRecDepth 4000 in
unseal bind add_children in
/-- C4, counterexample to the claim as stated: rebinding the single
non-ASCII key `"γ"` panics — the first bind succeeds, but the second bind
of the very same key fails (the byte lengths 2 differ from the character
count 1, so the code reaches the split case and slices at byte index 1,
inside the two-byte `γ`). -/
theorem C4_cex_rebind_panics :
    (bind (empty : PatriciaTrie Nat) ['γ'] 0).isSome = true ∧
    (Option.bind (bind (empty : PatriciaTrie Nat) ['γ'] 0)
      (fun t1 => bind t1 ['γ'] 1)).isNone = true :=
  ⟨by decide, by decide⟩

/-- C4 (amended to ASCII keys): on a trie reachable by ASCII binds, binding
an ASCII key `k` with `v1` and then with `v2` gives the structurally
identical trie as binding `k` once with `v2`, and `lookup k` in it returns
`v2`. -/
theorem C4_rebind_ascii (t : PatriciaTrie T) (hre : ReachableA t) {k : Str}
    (hak : ascii k) (v1 v2 : T) :
    ∃ t1 t2, bind t k v1 = some t1 ∧ bind t1 k v2 = some t2 ∧
      bind t k v2 = some t2 ∧ lookup t2 k = some v2 := by
  obtain ⟨hinv, hat⟩ := ReachableA_Inv_AsciiT hre
  obtain ⟨t1, hb1, _⟩ := bind_total v1 hat hak
  obtain ⟨t2, hb2, _⟩ := bind_total v2 hat hak
  have heq : bind t1 k v2 = bind t k v2 := bind_rebind hb1 hat hak
  refine ⟨t1, t2, hb1, by rw [heq]; exact hb2, hb2, ?_⟩
  exact bind_lookup_self hb2 hinv hat hak

/-- Witness for C4 on the trie holding `"a" → 1`, rebinding `"ab"` with 2
then 3. -/
theorem C4_rebind_ascii_witness :
    ∃ t1 t2, bind (Node ['a'] (some (1 : Nat)) []) ['a', 'b'] 2 = some t1 ∧
      bind t1 ['a', 'b'] 3 = some t2 ∧
      bind (Node ['a'] (some (1 : Nat)) []) ['a', 'b'] 3 = some t2 ∧
      lookup t2 ['a', 'b'] = some 3 :=
  C4_rebind_ascii _ (reachableA_leaf (by decide) 1) (by decide) 2 3

set_option maxRecDepth 4000 in
unseal bind add_children in
/-- C5, the char/byte bug: `longest_common_prefix` counts characters but
its result is used as a *byte* index for slicing, so binding `"αy"` into
the reachable trie holding `"αx"` panics (slicing `"αy"` at byte 1, inside
the two-byte `α`) instead of splitting after the shared character `α` as
the character-level reference algorithm would. -/
theorem C5_char_byte_mismatch :
    Reachable (Node ['α', 'x'] (some (0 : Nat)) []) ∧
    (bind (Node ['α', 'x'] (some (0 : Nat)) []) ['α', 'y'] 1).isNone = true :=
  ⟨reachable_leaf ['α', 'x'] 0, by decide⟩

/-- C6: on every reachable trie, binding the empty key `""` succeeds,
looking up `""` afterwards returns the bound value, and the resulting trie
has no node with an empty fragment other than possibly the root. -/
theorem C6_empty_key (t : PatriciaTrie T) (hre : Reachable t) (v : T) :
    ∃ t', bind t [] v = some t' ∧ lookup t' [] = some v ∧
      NoEmptyFragBelow t' :=
  bind_empty_key (Reachable_Inv hre) v

/-- Witness for C6 on the trie holding `"a" → 1` with value 7. -/
theorem C6_empty_key_witness :
    ∃ t', bind (Node ['a'] (some (1 : Nat)) []) [] 7 = some t' ∧
      lookup t' [] = some 7 ∧ NoEmptyFragBelow t' :=
  C6_empty_key _ (reachable_leaf ['a'] 1) 7

set_option maxRecDepth 4000 in
unseal bind add_children in
/-- C7, counterexample to the claim as stated: `bind` *can* fail — binding
`"αγ"` into the reachable trie holding `"αβ"` panics (byte-slicing at the
character-count index) — though not through `add_children`'s `Tip` branch. -/
theorem C7_cex_bind_fails :
    Reachable (Node ['α', 'β'] (some (0 : Nat)) []) ∧
    (bind (Node ['α', 'β'] (some (0 : Nat)) []) ['α', 'γ'] 1).isNone = true :=
  ⟨reachable_leaf ['α', 'β'] 0, by decide⟩

/-- C7 (amended): `add_children` would fail on the `Tip` variant (its
panic branch), but `bind` only ever invokes it on the `Node` it has just
matched, and on ASCII-fragment tries with ASCII keys `bind` never fails at
all; for non-ASCII keys it can fail, but via byte slicing, never via
`add_children`'s panic. -/
theorem C7_add_children_tip_unreachable (t : PatriciaTrie T) (hat : AsciiT t)
    {k : Str} (hak : ascii k) (v : T) :
    add_children (Tip : PatriciaTrie T) k v = none ∧
    ∃ t', bind t k v = some t' := by
  refine ⟨add_children_tip k v, ?_⟩
  obtain ⟨t', hb, _⟩ := bind_total v hat hak
  exact ⟨t', hb⟩

/-- Witness for C7 on the trie holding `"a" → 1` and the key `"ab"`. -/
theorem C7_add_children_tip_unreachable_witness :
    add_children (Tip : PatriciaTrie Nat) ['a', 'b'] 5 = none ∧
    ∃ t', bind (Node ['a'] (some (1 : Nat)) []) ['a', 'b'] 5 = some t' :=
  C7_add_children_tip_unreachable _ (AsciiT_leaf (by decide) (some 1))
    (by decide) 5

/-- C8: every trie reachable from `empty()` by `bind` calls satisfies the
structural invariant `Inv` — in every node the children map keys are
pairwise distinct and each child is stored under exactly the first
character of its non-empty fragment — and consequently no node below the
root has an empty fragment. -/
theorem C8_reachable_invariant (t : PatriciaTrie T) (hre : Reachable t) :
    Inv t ∧ NoEmptyFragBelow t := by
  have hinv := Reachable_Inv hre
  exact ⟨hinv, Inv_NoEmptyFragBelow hinv⟩

/-- Witness for C8 on the trie holding `"ab" → 1`. -/
theorem C8_reachable_invariant_witness :
    Inv (Node ['a', 'b'] (some (1 : Nat)) []) ∧
      NoEmptyFragBelow (Node ['a', 'b'] (some (1 : Nat)) []) :=
  C8_reachable_invariant _ (reachable_leaf ['a', 'b'] 1)

/-- C9: whenever `bind` returns (does not panic) it returns a `Node`,
never the `Tip` variant; and in every reachable trie no children map
contains `Tip`, so `Tip` occurs only as the root of the empty trie. -/
theorem C9_bind_returns_node :
    (∀ (t : PatriciaTrie T) (k : Str) (v : T) (t' : PatriciaTrie T),
      bind t k v = some t' → ∃ f val ch, t' = Node f val ch) ∧
    (∀ t : PatriciaTrie T, Reachable t → NoTipChild t) :=
  ⟨fun _ _ _ _ h => bind_isNode h,
   fun _ hre => Inv_NoTipChild (Reachable_Inv hre)⟩

/-- Witness for C9: the result of `bind empty "a" 0` is a `Node`, and the
reachable trie holding `"a" → 1` has no `Tip` children. -/
theorem C9_bind_returns_node_witness :
    (∃ f val ch, (Node ['a'] (some (0 : Nat)) []) = Node f val ch) ∧
      NoTipChild (Node ['a'] (some (1 : Nat)) []) :=
  ⟨(C9_bind_returns_node.1) (empty : PatriciaTrie Nat) ['a'] 0 _
      (bind_empty ['a'] 0),
   (C9_bind_returns_node.2) _ (reachable_leaf ['a'] 1)⟩

/-- C10, counterexample to the claim as stated: binding the empty key into
the empty trie yields the reachable trie `Node "" (some 0) []`, whose root
has an empty fragment but carries a value, so it is not a pure branch
point. -/
theorem C10_cex_empty_root_with_value :
    Reachable (Node ([] : Str) (some (0 : Nat)) []) ∧
    ¬ rootEmptyValNone (Node ([] : Str) (some (0 : Nat)) []) := by
  refine ⟨reachable_leaf [] 0, fun h => ?_⟩
  have := h (some 0) [] rfl
  cases this

/-- C10 (amended): on every trie reachable from `empty()` by `bind` calls
whose keys are all non-empty, a root `Node` with empty fragment carries no
value (it is a pure branch point). -/
theorem C10_root_branch_point (ps : List (Str × T)) (t : PatriciaTrie T)
    (hps : bindList (empty : PatriciaTrie T) ps = some t)
    (hne : ∀ p ∈ ps, p.1 ≠ []) : rootEmptyValNone t :=
  bindList_rootEmptyValNone hps hne (fun _ _ h => nomatch h)

/-- Witness for C10: after binding the prefix-free keys `"x"` and `"y"`,
the root is a branch `Node` with empty fragment and no value. -/
theorem C10_root_branch_point_witness :
    rootEmptyValNone
      (Node ([] : Str) none
        [('x', Node ['x'] (some (1 : Nat)) []), ('y', Node ['y'] (some 2) [])]) := by
  apply C10_root_branch_point [(['x'], 1), (['y'], 2)]
  · have hb2raw := @bind_split Nat ['y'] ['x'] 'x' 'y' [] (some 1) 2
      (by decide) (by decide) (by decide) (by decide) (by decide) (by decide)
      (by decide)
    have hb2 : bind (Node ['x'] (some (1 : Nat)) []) ['y'] 2 =
        some (Node ([] : Str) none
          [('x', Node ['x'] (some (1 : Nat)) []), ('y', Node ['y'] (some 2) [])]) := by
      rw [hb2raw]
      rfl
    rw [bindList_cons_some (bind_empty ['x'] 1), bindList_cons_some hb2,
      bindList_nil]
  · intro p hp
    rw [List.mem_cons, List.mem_singleton] at hp
    rcases hp with rfl | rfl <;> decide

end PatriciaTrie
